import Mathlib

/-!
# Verification of bwtc components

Shallow embedding, in Lean, of several components of the bwtc block
compressor, together with proofs and refutations of stated properties.

Embedded components (each definition's doc comment names its C++ source):
* the packed-integer codec (`src/coders.cc`),
* the packed-integer stream decoder
  (`HuffmanDecoder::readPackedInteger` / `WaveletDecoder::readPackedInteger`),
* the frequency table (`FreqTable` in `src/preprocessors/preprocessor.cc`),
* the common-pair selection and rewrite
  (`commonpairs::FindReplaceablePairs`, `commonpairs::WriteReplacements`),
* the block-header sectioning heuristic (`writeBlockHeader`),
* Elias gamma run-length codes, and the LF-power trailer
  (`src/HuffmanCoders.cpp`).

Machine integers (`uint64`, `uint16`, `byte`) are modelled as `Nat` with an
explicit `% 2 ^ w` at each operation where wrap-around is possible.
Assertions in the C++ code are modelled by returning `Option` values:
`none` means the assertion fired (or an out-of-bounds/stream-end access).
-/

set_option maxHeartbeats 1000000
set_option maxRecDepth 8000

/-! ## Bit-arithmetic helpers -/

/-- Disjoint bit-or is addition: a low part below `2 ^ k` or-ed with a value
shifted up by `k`. -/
lemma or_shiftLeft_eq (a b k : Nat) (h : a < 2 ^ k) :
    a ||| (b <<< k) = b * 2 ^ k + a := by
  rw [Nat.shiftLeft_eq, Nat.lor_comm, Nat.mul_comm b (2 ^ k),
    ← Nat.mul_add_lt_is_or h, Nat.mul_comm]

lemma and_127_eq (n : Nat) : n &&& 127 = n % 128 := by
  have h := Nat.and_pow_two_sub_one_eq_mod n 7
  norm_num at h
  exact h

lemma and_128_eq_zero_iff (p : Nat) : p &&& 128 = 0 ↔ p % 256 < 128 := by
  have h1 : p &&& 128 = (p.testBit 7).toNat * 2 ^ 7 := by
    have := Nat.and_two_pow p 7
    norm_num at this ⊢
    exact this
  have h2 : p.testBit 7 = decide (p / 2 ^ 7 % 2 = 1) := Nat.testBit_to_div_mod
  have h3 : p % 256 = p % 128 + 128 * (p / 128 % 2) := by
    have : (256 : Nat) = 128 * 2 := by norm_num
    rw [this, Nat.mod_mul]
  rcases Nat.mod_two_eq_zero_or_one (p / 128) with h | h
  · constructor
    · intro _
      have hlt : p % 128 < 128 := Nat.mod_lt _ (by norm_num)
      omega
    · intro _
      rw [h1, h2]
      norm_num
      omega
  · constructor
    · intro hand
      rw [h1, h2] at hand
      norm_num at hand
      omega
    · intro hlt
      have hm : p % 128 < 128 := Nat.mod_lt _ (by norm_num)
      omega

/-! ## Packed integers (`src/coders.cc`, lines 11–39)

`PackInteger` packs a `uint64` into at most eight 7-bit groups, one per byte
of the returned `uint64`, bit 7 of each byte being the continuation flag.
`UnpackInteger` inverts it.  The C++ loops are embedded as tail-recursive
functions on the loop state; the in-loop `assert`s (`assert(i < 8)` and
`assert(bits_handled <= 56)`) are modelled by returning `none`. -/

/-- Loop body of `bwtc::PackInteger` (src/coders.cc:11-26).  State: remaining
`integer`, accumulated `result`, byte index `i`.  Each iteration ors the next
7-bit group (and, when more groups follow, the continuation bit `0x80`) into
byte `i` of `result`. -/
def packLoop (integer result i : Nat) : Option (Nat × Nat) :=
  if hz : integer = 0 then some (result, i)
  else
    let r1 := (result ||| ((integer &&& 0x7F) <<< (i * 8))) % 2 ^ 64
    let integer1 := integer >>> 7
    if 8 ≤ i then none
    else if integer1 ≠ 0 then
      packLoop integer1 ((r1 ||| (0x80 <<< (i * 8))) % 2 ^ 64) (i + 1)
    else
      packLoop integer1 r1 (i + 1)
termination_by integer
decreasing_by
  all_goals
    simp only [Nat.shiftRight_eq_div_pow]
    exact Nat.div_lt_self (Nat.pos_of_ne_zero hz) (by norm_num)

/-- `bwtc::PackInteger` (src/coders.cc:11-26); returns
`(packed value, bytes_needed)`, or `none` when `assert(i < 8)` fires
(integers of 2^56 and above). -/
def PackInteger (integer : Nat) : Option (Nat × Nat) :=
  packLoop integer 0 0

/-- Loop body of `bwtc::UnpackInteger` (src/coders.cc:28-39).  State:
remaining `packed` bytes, accumulated `result`, `bits` handled so far. -/
def unpackLoop (packed result bits : Nat) : Option Nat :=
  let r1 := (result ||| ((packed &&& 0x7F) <<< bits)) % 2 ^ 64
  if 56 < bits + 7 then none
  else if hc : packed &&& 0x80 ≠ 0 then unpackLoop (packed >>> 8) r1 (bits + 7)
  else some r1
termination_by packed
decreasing_by
  simp only [Nat.shiftRight_eq_div_pow]
  refine Nat.div_lt_self ?_ (by norm_num)
  rcases Nat.eq_zero_or_pos packed with h | h
  · subst h; simp at hc
  · exact h

/-- `bwtc::UnpackInteger` (src/coders.cc:28-39); `none` when
`assert(bits_handled <= 56)` fires. -/
def UnpackInteger (packed : Nat) : Option Nat :=
  unpackLoop packed 0 0

/-- Closed form of the packed representation: little-endian 7-bit groups with
continuation bit `0x80` on every byte but the last. -/
def packVal (n : Nat) : Nat :=
  if h : n < 128 then n
  else n % 128 + 128 + 256 * packVal (n / 128)
termination_by n
decreasing_by
  exact Nat.div_lt_self (by omega) (by norm_num)

/-- Number of bytes of the packed representation (for positive inputs). -/
def packLen (n : Nat) : Nat :=
  if h : n < 128 then 1
  else packLen (n / 128) + 1
termination_by n
decreasing_by
  exact Nat.div_lt_self (by omega) (by norm_num)

/-- Value recovered by the unpack loop from a little-endian byte sequence. -/
def unVal (p : Nat) : Nat :=
  if h : p % 256 < 128 then p % 128
  else p % 128 + 128 * unVal (p / 256)
termination_by p
decreasing_by
  refine Nat.div_lt_self ?_ (by norm_num)
  rcases Nat.eq_zero_or_pos p with hz | hz
  · subst hz; simp at h
  · exact hz

/-- Number of bytes the unpack loop consumes. -/
def byteLen (p : Nat) : Nat :=
  if h : p % 256 < 128 then 1
  else byteLen (p / 256) + 1
termination_by p
decreasing_by
  refine Nat.div_lt_self ?_ (by norm_num)
  rcases Nat.eq_zero_or_pos p with hz | hz
  · subst hz; simp at h
  · exact hz

lemma packVal_pos {n : Nat} (h : 0 < n) : 0 < packVal n := by
  rw [packVal]
  split
  · exact h
  · omega

lemma packVal_ne_128 {n : Nat} (h : 0 < n) : packVal n ≠ 128 := by
  rw [packVal]
  split
  · omega
  · have hp : 0 < packVal (n / 128) := packVal_pos (by omega)
    omega

lemma byteLen_pos (p : Nat) : 1 ≤ byteLen p := by
  rw [byteLen]
  split
  · exact le_refl 1
  · omega

lemma unVal_packVal {n : Nat} (h : 0 < n) : unVal (packVal n) = n := by
  induction n using Nat.strong_induction_on with
  | _ n ih =>
    rw [packVal]
    split
    · rw [unVal]
      rw [dif_pos (by omega)]
      omega
    · rename_i hn
      set X := packVal (n / 128) with hX
      have hrec : unVal X = n / 128 :=
        ih (n / 128) (Nat.div_lt_self (by omega) (by norm_num)) (by omega)
      have hm : n % 128 < 128 := Nat.mod_lt _ (by norm_num)
      have hmod256 : (n % 128 + 128 + 256 * X) % 256 = n % 128 + 128 := by
        omega
      rw [unVal]
      rw [dif_neg (by omega)]
      have hmod128 : (n % 128 + 128 + 256 * X) % 128 = n % 128 := by
        omega
      have hdiv : (n % 128 + 128 + 256 * X) / 256 = X := by
        omega
      rw [hmod128, hdiv, hrec]
      omega

lemma byteLen_packVal {n : Nat} (h : 0 < n) : byteLen (packVal n) = packLen n := by
  induction n using Nat.strong_induction_on with
  | _ n ih =>
    rw [packVal, packLen]
    split
    · rw [byteLen]
      rw [dif_pos (by omega)]
    · rename_i hn
      set X := packVal (n / 128) with hX
      have hrec : byteLen X = packLen (n / 128) :=
        ih (n / 128) (Nat.div_lt_self (by omega) (by norm_num)) (by omega)
      rw [byteLen]
      rw [dif_neg (by omega)]
      have hdiv : (n % 128 + 128 + 256 * X) / 256 = X := by omega
      rw [hdiv, hrec]

lemma packLen_le : ∀ (k n : Nat), n < 2 ^ (7 * (k + 1)) → packLen n ≤ k + 1 := by
  intro k
  induction k with
  | zero =>
    intro n hn
    rw [packLen]
    rw [dif_pos (by norm_num at hn; omega)]
  | succ k ih =>
    intro n hn
    rw [packLen]
    split
    · omega
    · rename_i hge
      have hdiv : n / 128 < 2 ^ (7 * (k + 1)) := by
        have h128 : (128 : Nat) = 2 ^ 7 := by norm_num
        rw [h128, Nat.div_lt_iff_lt_mul (by positivity), ← pow_add]
        calc n < 2 ^ (7 * (k + 1 + 1)) := hn
        _ ≤ 2 ^ (7 * (k + 1) + 7) := by
          apply Nat.pow_le_pow_right (by norm_num)
          omega
      have := ih (n / 128) hdiv
      omega


lemma mul_succ_bound {a c : Nat} (b : Nat) (ha : a < c) : b * c + a < (b + 1) * c := by
  rw [Nat.add_mul, one_mul]
  omega

lemma shiftRight7_eq (n : Nat) : n >>> 7 = n / 128 := by
  rw [Nat.shiftRight_eq_div_pow]

lemma shiftRight8_eq (n : Nat) : n >>> 8 = n / 256 := by
  rw [Nat.shiftRight_eq_div_pow]

/-- Or-ing the continuation bit `0x80 <<< k` into a value whose byte at `k`
is `b < 128` adds `128 * 2 ^ k`. -/
lemma or_contbit_eq (a b k : Nat) (ha : a < 2 ^ k) (hb : b < 128) :
    (b * 2 ^ k + a) ||| (128 <<< k) = (b + 128) * 2 ^ k + a := by
  have h3 : (2 : Nat) ^ (k + 7) = 128 * 2 ^ k := by
    rw [pow_add]; ring
  have hX : b * 2 ^ k + a < 2 ^ (k + 7) := by
    have h1 := mul_succ_bound b ha
    have h2 : (b + 1) * 2 ^ k ≤ 128 * 2 ^ k := Nat.mul_le_mul_right _ (by omega)
    omega
  have h128 : (128 : Nat) <<< k = 2 ^ (k + 7) := by
    rw [Nat.shiftLeft_eq, pow_add]
    ring
  have hor := Nat.mul_add_lt_is_or hX (1 : Nat)
  rw [Nat.mul_one] at hor
  rw [h128, Nat.lor_comm, ← hor, h3, Nat.add_mul]
  ring

/-- Closed form of the pack loop: starting from accumulator `acc` (occupying
only the low `8 * i` bits) and byte index `i`, with `n` small enough for the
remaining `8 - i` bytes, the loop succeeds and appends `packVal n`. -/
lemma packLoop_eq :
    ∀ n, 0 < n → ∀ i acc, n < 2 ^ (7 * (8 - i)) → acc < 2 ^ (8 * i) →
      packLoop n acc i = some (acc + packVal n * 2 ^ (8 * i), i + packLen n) := by
  intro n
  induction n using Nat.strong_induction_on with
  | _ n ih =>
    intro hn i acc hsmall hacc
    have hi : i ≤ 7 := by
      by_contra hgt
      have h0 : 8 - i = 0 := by omega
      rw [h0] at hsmall
      norm_num at hsmall
      omega
    have hacc' : acc < 2 ^ (i * 8) := by rw [Nat.mul_comm i 8]; exact hacc
    rw [packLoop]
    rw [dif_neg (by omega)]
    simp only [and_127_eq, shiftRight7_eq]
    rw [if_neg (by omega)]
    have hmod : n % 128 < 128 := Nat.mod_lt _ (by norm_num)
    have hor : acc ||| ((n % 128) <<< (i * 8)) = n % 128 * 2 ^ (i * 8) + acc :=
      or_shiftLeft_eq _ _ _ hacc'
    have hblk : n % 128 * 2 ^ (i * 8) + acc < 2 ^ (i * 8 + 7) := by
      have h1 := mul_succ_bound (n % 128) hacc'
      have h2 : (n % 128 + 1) * 2 ^ (i * 8) ≤ 128 * 2 ^ (i * 8) :=
        Nat.mul_le_mul_right _ (by omega)
      have h3 : (128 : Nat) * 2 ^ (i * 8) = 2 ^ (i * 8 + 7) := by
        rw [pow_add]; ring
      omega
    have hblk64 : n % 128 * 2 ^ (i * 8) + acc < 2 ^ 64 := by
      calc n % 128 * 2 ^ (i * 8) + acc < 2 ^ (i * 8 + 7) := hblk
      _ ≤ 2 ^ 64 := Nat.pow_le_pow_right (by norm_num) (by omega)
    rw [hor, Nat.mod_eq_of_lt hblk64]
    rcases Nat.lt_or_ge n 128 with hsm | hlg
    · -- final byte: n / 128 = 0, the loop stops at the next entry
      have hz : n / 128 = 0 := Nat.div_eq_of_lt hsm
      rw [hz]
      simp only [ne_eq, not_true_eq_false, if_false, ite_false]
      rw [packLoop]
      rw [dif_pos rfl]
      have hv : packVal n = n := by rw [packVal]; rw [dif_pos hsm]
      have hl : packLen n = 1 := by rw [packLen]; rw [dif_pos hsm]
      rw [hv, hl]
      rw [Nat.mod_eq_of_lt hsm, Nat.mul_comm i 8, Nat.add_comm acc]
    · -- continuation: or in 0x80, recurse on n / 128
      have hnz : n / 128 ≠ 0 := by
        intro h0
        have hxx := Nat.div_eq_of_lt (show n < 128 by omega)
        omega
      rw [if_pos (by simpa using hnz)]
      have hor2 : (n % 128 * 2 ^ (i * 8) + acc) ||| (128 <<< (i * 8)) =
          (n % 128 + 128) * 2 ^ (i * 8) + acc :=
        or_contbit_eq _ _ _ hacc' hmod
      have hblk2 : (n % 128 + 128) * 2 ^ (i * 8) + acc < 2 ^ (8 * (i + 1)) := by
        have h1 := mul_succ_bound (n % 128 + 128) hacc'
        have h2 : (n % 128 + 128 + 1) * 2 ^ (i * 8) ≤ 256 * 2 ^ (i * 8) :=
          Nat.mul_le_mul_right _ (by omega)
        have h3 : (256 : Nat) * 2 ^ (i * 8) = 2 ^ (8 * (i + 1)) := by
          have h4 : 8 * (i + 1) = i * 8 + 8 := by ring
          rw [h4, pow_add]; ring
        omega
      have hblk264 : (n % 128 + 128) * 2 ^ (i * 8) + acc < 2 ^ 64 := by
        calc (n % 128 + 128) * 2 ^ (i * 8) + acc < 2 ^ (8 * (i + 1)) := hblk2
        _ ≤ 2 ^ 64 := Nat.pow_le_pow_right (by norm_num) (by omega)
      rw [hor2, Nat.mod_eq_of_lt hblk264]
      have hrecsmall : n / 128 < 2 ^ (7 * (8 - (i + 1))) := by
        have h128 : (128 : Nat) = 2 ^ 7 := by norm_num
        rw [h128, Nat.div_lt_iff_lt_mul (by positivity), ← pow_add]
        calc n < 2 ^ (7 * (8 - i)) := hsmall
        _ ≤ 2 ^ (7 * (8 - (i + 1)) + 7) := by
          apply Nat.pow_le_pow_right (by norm_num)
          omega
      have hrec := ih (n / 128) (Nat.div_lt_self (by omega) (by norm_num))
        (by omega) (i + 1) ((n % 128 + 128) * 2 ^ (i * 8) + acc) hrecsmall hblk2
      rw [hrec]
      have hv : packVal n = n % 128 + 128 + 256 * packVal (n / 128) := by
        rw [packVal]; rw [dif_neg (by omega)]
      have hl : packLen n = packLen (n / 128) + 1 := by
        rw [packLen]; rw [dif_neg (by omega)]
      rw [hv, hl]
      have h8 : (2 : Nat) ^ (8 * (i + 1)) = 256 * 2 ^ (i * 8) := by
        have : 8 * (i + 1) = i * 8 + 8 := by ring
        rw [this, pow_add]
        ring
      have h9 : (2 : Nat) ^ (8 * i) = 2 ^ (i * 8) := by
        rw [Nat.mul_comm]
      simp only [Option.some.injEq, Prod.mk.injEq]
      refine ⟨?_, by omega⟩
      rw [h8, h9]
      ring

/-- Closed form of the unpack loop. -/
lemma unpackLoop_eq :
    ∀ p acc bits, acc < 2 ^ bits → bits + 7 * byteLen p ≤ 56 →
      unpackLoop p acc bits = some (acc + unVal p * 2 ^ bits) := by
  intro p
  induction p using Nat.strong_induction_on with
  | _ p ih =>
    intro acc bits hacc hfit
    have hb1 : 1 ≤ byteLen p := byteLen_pos p
    rw [unpackLoop]
    simp only [and_127_eq]
    rw [if_neg (by omega)]
    have hmod : p % 128 < 128 := Nat.mod_lt _ (by norm_num)
    have hor : acc ||| ((p % 128) <<< bits) = p % 128 * 2 ^ bits + acc :=
      or_shiftLeft_eq _ _ _ hacc
    have hblk : p % 128 * 2 ^ bits + acc < 2 ^ (bits + 7) := by
      have h1 := mul_succ_bound (p % 128) hacc
      have h2 : (p % 128 + 1) * 2 ^ bits ≤ 128 * 2 ^ bits :=
        Nat.mul_le_mul_right _ (by omega)
      have h3 : (128 : Nat) * 2 ^ bits = 2 ^ (bits + 7) := by
        rw [pow_add]; ring
      omega
    have hblk64 : p % 128 * 2 ^ bits + acc < 2 ^ 64 := by
      calc p % 128 * 2 ^ bits + acc < 2 ^ (bits + 7) := hblk
      _ ≤ 2 ^ 64 := Nat.pow_le_pow_right (by norm_num) (by omega)
    rw [hor, Nat.mod_eq_of_lt hblk64]
    rcases Nat.lt_or_ge (p % 256) 128 with hsm | hlg
    · -- final byte
      rw [dif_neg (by rw [ne_eq, and_128_eq_zero_iff]; simpa using hsm)]
      have hv : unVal p = p % 128 := by rw [unVal]; rw [dif_pos hsm]
      rw [hv, Nat.add_comm acc]
    · -- continuation byte
      have hlen : byteLen p = byteLen (p / 256) + 1 := by
        rw [byteLen]; rw [dif_neg (by omega)]
      have hppos : 0 < p := by
        rcases Nat.eq_zero_or_pos p with h0 | h0
        · subst h0; norm_num at hlg
        · exact h0
      rw [dif_pos (by rw [ne_eq, and_128_eq_zero_iff]; omega)]
      simp only [shiftRight8_eq]
      have hrec := ih (p / 256) (Nat.div_lt_self hppos (by norm_num))
        (p % 128 * 2 ^ bits + acc) (bits + 7) hblk (by omega)
      rw [hrec]
      have hv : unVal p = p % 128 + 128 * unVal (p / 256) := by
        rw [unVal]; rw [dif_neg (by omega)]
      rw [hv]
      have h7 : (2 : Nat) ^ (bits + 7) = 128 * 2 ^ bits := by
        rw [pow_add]; ring
      rw [h7, Nat.add_mul]
      ring

/-- C4: for every `n ∈ [0, 2^56)`, `UnpackInteger (PackInteger n)` returns `n`,
and for every positive `n` in that domain the packed value is never the
reserved sole-byte sequence `0x80`. -/
theorem C4_packInteger_roundtrip :
    ∀ n : Nat, n < 2 ^ 56 →
      (PackInteger n).bind (fun pr => UnpackInteger pr.1) = some n ∧
      (0 < n → ∀ r b, PackInteger n = some (r, b) → r ≠ 0x80) := by
  intro n hn
  rcases Nat.eq_zero_or_pos n with hz | hp
  · subst hz
    constructor
    · have h1 : PackInteger 0 = some (0, 0) := by
        rw [PackInteger, packLoop]
        norm_num
      rw [h1]
      have h2 : UnpackInteger 0 = some 0 := by
        rw [UnpackInteger, unpackLoop]
        norm_num
      simpa using h2
    · omega
  · have hsmall : n < 2 ^ (7 * (8 - 0)) := by simpa using hn
    have hpack := packLoop_eq n hp 0 0 hsmall (by norm_num)
    have hpack' : PackInteger n = some (packVal n, packLen n) := by
      rw [PackInteger, hpack]
      norm_num
    have hlen : packLen n ≤ 8 := by
      have := packLen_le 7 n (by simpa using hn)
      omega
    have hblen : byteLen (packVal n) = packLen n := byteLen_packVal hp
    have hunp := unpackLoop_eq (packVal n) 0 0 (by norm_num) (by omega)
    have hunp' : UnpackInteger (packVal n) = some n := by
      rw [UnpackInteger, hunp]
      simp [unVal_packVal hp]
    constructor
    · rw [hpack']
      simpa using hunp'
    · intro _ r b heq
      rw [hpack'] at heq
      simp only [Option.some.injEq, Prod.mk.injEq] at heq
      rw [← heq.1]
      exact packVal_ne_128 hp

/-- Witness for C4 at the concrete input 300. -/
theorem C4_witness :
    300 < 2 ^ 56 ∧
      ((PackInteger 300).bind (fun pr => UnpackInteger pr.1) = some 300 ∧
       (0 < 300 → ∀ r b, PackInteger 300 = some (r, b) → r ≠ 0x80)) :=
  ⟨by norm_num, C4_packInteger_roundtrip 300 (by norm_num)⟩

/-! ## Packed-integer stream decoding

`HuffmanDecoder::readPackedInteger` (src/HuffmanCoders.cpp:667-681) and
`WaveletDecoder::readPackedInteger` (src/WaveletCoders.cpp:293-307) are
identical: they read bytes from the input stream until one with a clear
high bit appears, or-ing each byte into the packed value at position
`i * 8`.  The stream is modelled as a list of bytes; reading past its end
yields `none`.  Note the C++ loop has no bound on `i`: for `i ≥ 8`
the shift `read << i*8` exceeds the `uint64` width (the embedded model
truncates with `% 2 ^ 64`, which only affects the returned value, never
the control flow, since the loop is steered by each byte's own bit 7). -/

/-- The `for(i = 0; bits_left; ++i)` loop of `readPackedInteger`. Returns
`(packed value, number of bytes consumed)`. -/
def readPackedLoop (stream : List Nat) (packed i : Nat) : Option (Nat × Nat) :=
  match stream with
  | [] => none
  | read :: rest =>
    let packed1 := (packed ||| (read <<< (i * 8))) % 2 ^ 64
    if read &&& 0x80 ≠ 0 then readPackedLoop rest packed1 (i + 1)
    else some (packed1, i + 1)

/-- `readPackedInteger`: run the loop, then map the reserved value `0x80`
to the end symbol `1 << 63`. -/
def readPackedInteger (stream : List Nat) : Option (Nat × Nat) :=
  (readPackedLoop stream 0 0).map
    (fun vi => (if vi.1 = 0x80 then 2 ^ 63 else vi.1, vi.2))

lemma readPackedInteger_map_snd (s : List Nat) :
    (readPackedInteger s).map Prod.snd = (readPackedLoop s 0 0).map Prod.snd := by
  rw [readPackedInteger, Option.map_map]
  cases readPackedLoop s 0 0 <;> simp

/-- The loop consumes exactly the continuation bytes plus the terminator,
no matter how many continuation bytes there are. -/
lemma readPackedLoop_consumes :
    ∀ (pre : List Nat) (b : Nat) (rest : List Nat) (packed i : Nat),
      (∀ x ∈ pre, x &&& 0x80 ≠ 0) → b &&& 0x80 = 0 →
      (readPackedLoop (pre ++ b :: rest) packed i).map Prod.snd =
        some (i + pre.length + 1) := by
  intro pre
  induction pre with
  | nil =>
    intro b rest packed i hpre hb
    simp [readPackedLoop, hb]
  | cons x xs ih =>
    intro b rest packed i hpre hb
    have hx : x &&& 0x80 ≠ 0 := hpre x (List.mem_cons_self x xs)
    have hxs : ∀ y ∈ xs, y &&& 0x80 ≠ 0 := fun y hy => hpre y (List.mem_cons_of_mem x hy)
    simp only [List.cons_append, readPackedLoop, if_pos hx, List.append_eq]
    rw [ih b rest _ (i + 1) hxs hb]
    simp only [List.length_cons, Option.some.injEq]
    omega

/-- C5 counterexample: a terminator arriving as the ninth byte.  The decoder
consumes all nine bytes and succeeds; the claim demands a `MalformedStream`
failure whenever more than 8 bytes are read. -/
theorem C5_counterexample :
    (readPackedInteger
        [0x81, 0x81, 0x81, 0x81, 0x81, 0x81, 0x81, 0x81, 0x01]).map Prod.snd =
      some 9 := by
  decide

/-- C5 (amended): decoding stops at the first byte whose high bit is clear,
and succeeds there regardless of how many continuation bytes preceded it —
the code has no length bound and never raises `MalformedStream`; it can only
fail by exhausting the stream. -/
theorem C5_amended_stops_at_first_clear_bit :
    ∀ (pre : List Nat) (b : Nat) (rest : List Nat),
      (∀ x ∈ pre, x &&& 0x80 ≠ 0) → b &&& 0x80 = 0 →
      (readPackedInteger (pre ++ b :: rest)).map Prod.snd =
        some (pre.length + 1) := by
  intro pre b rest hpre hb
  rw [readPackedInteger_map_snd]
  have h := readPackedLoop_consumes pre b rest 0 0 hpre hb
  simpa using h

/-- Witness for the amended C5 at a concrete stream. -/
theorem C5_amended_witness :
    (∀ x ∈ ([0xFF, 0xFF] : List Nat), x &&& 0x80 ≠ 0) ∧ (0x05 : Nat) &&& 0x80 = 0 ∧
      (readPackedInteger ([0xFF, 0xFF] ++ 0x05 :: [0x33])).map Prod.snd = some 3 :=
  ⟨by decide, by decide,
    C5_amended_stops_at_first_clear_bit [0xFF, 0xFF] 0x05 [0x33] (by decide) (by decide)⟩

/-! ## The frequency table (`src/preprocessors/preprocessor.cc`, lines 96-173)

`bwtc::FreqTable` keeps 256 `(byte, count)` pairs sorted ascending by count
(array `freq_`), plus a reverse index `location_` mapping each byte to its
current position in `freq_`.  Counts are `uint64` in the source; they are
modelled as plain `Nat`: every count the program stores is bounded by the
byte length of the current block (initial counts are byte frequencies of the
block and deltas are pair frequencies of the same block), so `uint64`
wrap-around is unreachable and the embedding drops the `% 2 ^ 64`. -/

structure FreqTable where
  freq : List (Nat × Nat)
  location : List Nat
  deriving DecidableEq, Repr

namespace FreqTable

/-- `FreqTable::operator[]` (count at sorted position `i`). -/
def count (t : FreqTable) (i : Nat) : Nat := (t.freq.getD i (0, 0)).2

/-- `FreqTable::Key` (byte at sorted position `i`). -/
def key (t : FreqTable) (i : Nat) : Nat := (t.freq.getD i (0, 0)).1

/-- `freq_[location_[k]].second`: the count the table currently associates
with byte `k`. -/
def countOf (t : FreqTable) (k : Nat) : Nat :=
  (t.freq.getD (t.location.getD k 0) (0, 0)).2

/-- The `while` loop of `FreqTable::Decrease` (preprocessor.cc:131-136):
shift larger predecessors one slot up (incrementing their `location_`
entries) until the insertion position for the decreased count is found.
Returns the final `freq_`, `location_`, and insertion index. -/
def decLoop (freq : List (Nat × Nat)) (loc : List Nat) (v : Nat) :
    Nat → List (Nat × Nat) × List Nat × Nat
  | 0 => (freq, loc, 0)
  | j + 1 =>
    let prev := freq.getD j (0, 0)
    if v < prev.2 then
      decLoop (freq.set (j + 1) prev) (loc.set prev.1 (loc.getD prev.1 0 + 1)) v j
    else (freq, loc, j + 1)

/-- `FreqTable::Decrease` (preprocessor.cc:123-141).  When the delta exceeds
the current count the table is returned untouched with `false`; otherwise
the decreased pair is bubbled down to keep `freq_` sorted. -/
def Decrease (t : FreqTable) (k value : Nat) : Bool × FreqTable :=
  let fi := t.location.getD k 0
  if (t.freq.getD fi (0, 0)).2 < value then (false, t)
  else
    let newValue := (t.freq.getD fi (0, 0)).2 - value
    let newPair := ((t.freq.getD fi (0, 0)).1, newValue)
    let res := decLoop t.freq t.location newValue fi
    (true, ⟨res.1.set res.2.2 newPair, res.2.1.set newPair.1 res.2.2⟩)

/-- The `while` loop of `FreqTable::Increase` (preprocessor.cc:151-156):
shift smaller successors one slot down (decrementing their `location_`
entries) until the insertion position for the increased count is found.
The last argument is the loop's a-priori iteration bound `255 - idx`
(the position can only move up to slot 255), supplied by `Increase`, which
makes the recursion structural; when it reaches 0 the position is 255 and
the `freq_index < 255` test fails anyway. -/
def incLoop : List (Nat × Nat) → List Nat → Nat → Nat → Nat →
    List (Nat × Nat) × List Nat × Nat
  | freq, loc, _, idx, 0 => (freq, loc, idx)
  | freq, loc, v, idx, fuel + 1 =>
    if idx < 255 then
      let next := freq.getD (idx + 1) (0, 0)
      if v > next.2 then
        incLoop (freq.set idx next) (loc.set next.1 (loc.getD next.1 0 - 1)) v
          (idx + 1) fuel
      else (freq, loc, idx)
    else (freq, loc, idx)

/-- `FreqTable::Increase` (preprocessor.cc:143-160).  The source computes
`uint64 new_value = freq_[freq_index].second + value`, which wraps modulo
`2^64`; the embedding keeps that wrap explicit. -/
def Increase (t : FreqTable) (k value : Nat) : FreqTable :=
  let fi := t.location.getD k 0
  let newValue := ((t.freq.getD fi (0, 0)).2 + value) % 2 ^ 64
  let newPair := ((t.freq.getD fi (0, 0)).1, newValue)
  let res := incLoop t.freq t.location newValue fi (255 - fi)
  ⟨res.1.set res.2.2 newPair, res.2.1.set newPair.1 res.2.2⟩

/-- `FreqTable::InitLocations` (preprocessor.cc:162-166): write
`location_[freq_[i].first] = i` for `i = 0..255`.  The C++ `location_`
array is uninitialized beforehand; the model starts from zeros (every
entry is overwritten when the keys are a permutation of `0..255`). -/
def initLocations (freq : List (Nat × Nat)) : List Nat :=
  (List.range 256).foldl (fun loc i => loc.set (freq.getD i (0, 0)).1 i)
    (List.replicate 256 0)

/-- `FreqTable::FreqTable(uint64*)` (preprocessor.cc:104-111): pair each
byte with its frequency, sort ascending by count (`std::sort` with
`ComparePairSecondAsc`; `std::sort` is unstable, so any ascending
reordering is a faithful model — the embedding uses insertion sort), then
build the location index. -/
def ofFreqs (frequencies : List Nat) : FreqTable :=
  let freq := List.insertionSort (fun a b : Nat × Nat => a.2 ≤ b.2)
    ((List.range 256).map (fun i => (i, frequencies.getD i 0)))
  ⟨freq, initLocations freq⟩

/-- The table invariant: 256 entries each way, byte-valued keys, `location_`
inverts the key array, and counts ascend (stated on adjacent slots). -/
def Invariant (t : FreqTable) : Prop :=
  t.freq.length = 256 ∧ t.location.length = 256 ∧
  (∀ i, i < 256 → t.key i < 256) ∧
  (∀ i, i < 256 → t.location.getD (t.key i) 0 = i) ∧
  (∀ i, i < 255 → t.count i ≤ t.count (i + 1))

instance (t : FreqTable) : Decidable (Invariant t) := by
  unfold Invariant
  infer_instance

end FreqTable

/-! ### List update helpers -/

lemma getD_set_self {α} (l : List α) (i : Nat) (a d : α) (h : i < l.length) :
    (l.set i a).getD i d = a := by
  rw [List.getD_eq_getElem?_getD, List.getElem?_set_self h]
  rfl

lemma getD_set_ne {α} (l : List α) {i j : Nat} (a d : α) (h : i ≠ j) :
    (l.set i a).getD j d = l.getD j d := by
  rw [List.getD_eq_getElem?_getD, List.getElem?_set_ne h, ← List.getD_eq_getElem?_getD]

open FreqTable in
/-- Writing the pending pair `(k, v)` into the hole at `idx` and updating
`location_[k]` restores the full table invariant, provided everything but
the hole is consistent and `v` fits between the entries below and above. -/
lemma set_final_invariant
    (freq : List (Nat × Nat)) (loc : List Nat) (idx k v : Nat)
    (hfl : freq.length = 256) (hll : loc.length = 256)
    (hidx : idx < 256) (hk : k < 256)
    (hkeys : ∀ i, i < 256 → i ≠ idx → (freq.getD i (0, 0)).1 < 256)
    (hkne : ∀ i, i < 256 → i ≠ idx → (freq.getD i (0, 0)).1 ≠ k)
    (hloc : ∀ i, i < 256 → i ≠ idx → loc.getD (freq.getD i (0, 0)).1 0 = i)
    (hsorted : ∀ j, j < 256 → ∀ i, i < j → i ≠ idx → j ≠ idx →
      (freq.getD i (0, 0)).2 ≤ (freq.getD j (0, 0)).2)
    (hhigh : ∀ m, idx < m → m < 256 → v ≤ (freq.getD m (0, 0)).2)
    (hlow : ∀ i, i < idx → (freq.getD i (0, 0)).2 ≤ v) :
    Invariant ⟨freq.set idx (k, v), loc.set k idx⟩ := by
  have hfl' : (freq.set idx (k, v)).length = 256 := by
    rw [List.length_set]; exact hfl
  have hll' : (loc.set k idx).length = 256 := by
    rw [List.length_set]; exact hll
  refine ⟨hfl', hll', ?_, ?_, ?_⟩
  · -- keys are bytes
    intro i hi
    show ((freq.set idx (k, v)).getD i (0, 0)).1 < 256
    rcases eq_or_ne i idx with rfl | hne
    · rw [getD_set_self _ _ _ _ (by omega)]
      exact hk
    · rw [getD_set_ne _ _ _ (fun h => hne h.symm)]
      exact hkeys i hi hne
  · -- location inverts keys
    intro i hi
    show (loc.set k idx).getD ((freq.set idx (k, v)).getD i (0, 0)).1 0 = i
    rcases eq_or_ne i idx with rfl | hne
    · rw [getD_set_self _ _ _ _ (by omega)]
      exact getD_set_self _ _ _ _ (by omega)
    · rw [getD_set_ne _ _ _ (fun h => hne h.symm)]
      rw [getD_set_ne _ _ _ (fun h => hkne i hi hne h.symm)]
      exact hloc i hi hne
  · -- adjacent slots ascend
    intro i hi
    show ((freq.set idx (k, v)).getD i (0, 0)).2 ≤
      ((freq.set idx (k, v)).getD (i + 1) (0, 0)).2
    rcases eq_or_ne i idx with rfl | hne
    · rw [getD_set_self _ _ _ _ (by omega)]
      rw [getD_set_ne _ _ _ (by omega)]
      exact hhigh (i + 1) (by omega) (by omega)
    · rcases eq_or_ne (i + 1) idx with heq | hne2
      · rw [getD_set_ne _ _ _ (fun h => hne h.symm)]
        rw [← heq, getD_set_self _ _ _ _ (by omega)]
        exact hlow i (by omega)
      · rw [getD_set_ne _ _ _ (fun h => hne h.symm)]
        rw [getD_set_ne _ _ _ (fun h => hne2 h.symm)]
        exact hsorted (i + 1) (by omega) i (by omega) hne hne2

open FreqTable in
/-- Lengths are preserved by the `Decrease` bubble loop and the final index
does not grow. -/
lemma decLoop_facts :
    ∀ (idx : Nat) (freq : List (Nat × Nat)) (loc : List Nat) (v : Nat),
      (decLoop freq loc v idx).1.length = freq.length ∧
      (decLoop freq loc v idx).2.1.length = loc.length ∧
      (decLoop freq loc v idx).2.2 ≤ idx := by
  intro idx
  induction idx with
  | zero => intro freq loc v; exact ⟨rfl, rfl, le_refl 0⟩
  | succ j ih =>
    intro freq loc v
    rw [decLoop]
    split
    · have h := ih (freq.set (j + 1) (freq.getD j (0, 0)))
        (loc.set (freq.getD j (0, 0)).1 (loc.getD (freq.getD j (0, 0)).1 0 + 1)) v
      simp only [List.length_set] at h
      exact ⟨h.1, h.2.1, by omega⟩
    · exact ⟨rfl, rfl, le_refl _⟩

open FreqTable in
/-- The `Decrease` bubble loop, followed by the final write of the pending
pair, restores the invariant. -/
lemma decLoop_invariant :
    ∀ (idx : Nat) (freq : List (Nat × Nat)) (loc : List Nat) (k v : Nat),
      freq.length = 256 → loc.length = 256 → idx < 256 → k < 256 →
      (∀ i, i < 256 → i ≠ idx → (freq.getD i (0, 0)).1 < 256) →
      (∀ i, i < 256 → i ≠ idx → (freq.getD i (0, 0)).1 ≠ k) →
      (∀ i, i < 256 → i ≠ idx → loc.getD (freq.getD i (0, 0)).1 0 = i) →
      (∀ j, j < 256 → ∀ i, i < j → i ≠ idx → j ≠ idx →
        (freq.getD i (0, 0)).2 ≤ (freq.getD j (0, 0)).2) →
      (∀ m, idx < m → m < 256 → v ≤ (freq.getD m (0, 0)).2) →
      Invariant ⟨(decLoop freq loc v idx).1.set (decLoop freq loc v idx).2.2 (k, v),
        (decLoop freq loc v idx).2.1.set k (decLoop freq loc v idx).2.2⟩ := by
  intro idx
  induction idx with
  | zero =>
    intro freq loc k v hfl hll hidx hk hkeys hkne hloc hsorted hhigh
    exact set_final_invariant freq loc 0 k v hfl hll hidx hk hkeys hkne hloc hsorted
      hhigh (by omega)
  | succ j ih =>
    intro freq loc k v hfl hll hidx hk hkeys hkne hloc hsorted hhigh
    rw [decLoop]
    split
    · -- shift freq[j] up to slot j+1, hole moves down to j
      rename_i hcond
      set prev := freq.getD j (0, 0) with hprev
      have hlocj : loc.getD prev.1 0 = j := hloc j (by omega) (by omega)
      rw [hlocj]
      have hkeyinj : ∀ i1 i2, i1 < 256 → i2 < 256 → i1 ≠ j + 1 → i2 ≠ j + 1 →
          (freq.getD i1 (0, 0)).1 = (freq.getD i2 (0, 0)).1 → i1 = i2 := by
        intro i1 i2 h1 h2 hn1 hn2 heq
        have e1 := hloc i1 h1 hn1
        have e2 := hloc i2 h2 hn2
        rw [heq] at e1
        omega
      apply ih (freq.set (j + 1) prev) (loc.set prev.1 (j + 1)) k v
      · rw [List.length_set]; exact hfl
      · rw [List.length_set]; exact hll
      · omega
      · exact hk
      · -- keys are bytes away from the new hole j
        intro i hi hne
        rcases eq_or_ne i (j + 1) with rfl | hne2
        · rw [getD_set_self _ _ _ _ (by omega)]
          exact hkeys j (by omega) (by omega)
        · rw [getD_set_ne _ _ _ (fun h => hne2 h.symm)]
          exact hkeys i hi hne2
      · -- keys differ from k away from the new hole
        intro i hi hne
        rcases eq_or_ne i (j + 1) with rfl | hne2
        · rw [getD_set_self _ _ _ _ (by omega)]
          exact hkne j (by omega) (by omega)
        · rw [getD_set_ne _ _ _ (fun h => hne2 h.symm)]
          exact hkne i hi hne2
      · -- location index is right away from the new hole
        intro i hi hne
        rcases eq_or_ne i (j + 1) with rfl | hne2
        · rw [getD_set_self _ _ _ _ (by omega)]
          exact getD_set_self _ _ _ _ (by rw [hll]; exact hkeys j (by omega) (by omega))
        · rw [getD_set_ne _ _ _ (fun h => hne2 h.symm)]
          have hkne2 : (freq.getD i (0, 0)).1 ≠ prev.1 := by
            intro heq
            have := hkeyinj i j hi (by omega) hne2 (by omega) heq
            omega
          rw [getD_set_ne _ _ _ (fun h => hkne2 h.symm)]
          exact hloc i hi hne2
      · -- sortedness away from the new hole
        intro j2 hj2 i hi hne1 hne2
        rcases eq_or_ne j2 (j + 1) with rfl | hj2ne
        · rw [getD_set_self _ _ _ _ (by omega)]
          rcases eq_or_ne i (j + 1) with rfl | hine
          · omega
          · rw [getD_set_ne _ _ _ (fun h => hine h.symm)]
            exact hsorted j (by omega) i (by omega) hine (by omega)
        · rw [getD_set_ne _ _ _ (fun h => hj2ne h.symm)]
          rcases eq_or_ne i (j + 1) with rfl | hine
          · rw [getD_set_self _ _ _ _ (by omega)]
            exact hsorted j2 hj2 j (by omega) (by omega) hj2ne
          · rw [getD_set_ne _ _ _ (fun h => hine h.symm)]
            exact hsorted j2 hj2 i hi hine hj2ne
      · -- v is below everything above the new hole
        intro m hm hm2
        rcases eq_or_ne m (j + 1) with rfl | hmne
        · rw [getD_set_self _ _ _ _ (by omega)]
          omega
        · rw [getD_set_ne _ _ _ (fun h => hmne h.symm)]
          exact hhigh m (by omega) hm2
    · -- loop exit: v is not smaller than freq[j], write at j+1
      rename_i hcond
      apply set_final_invariant freq loc (j + 1) k v hfl hll hidx hk hkeys hkne hloc
        hsorted hhigh
      intro i hi
      rcases eq_or_ne i j with rfl | hne
      · omega
      · calc (freq.getD i (0, 0)).2 ≤ (freq.getD j (0, 0)).2 :=
          hsorted j (by omega) i (by omega) (by omega) (by omega)
        _ ≤ v := by omega

open FreqTable in
/-- Lengths are preserved by the `Increase` bubble loop and the final index
stays in `[idx, 255]`. -/
lemma incLoop_facts :
    ∀ (fuel idx : Nat) (freq : List (Nat × Nat)) (loc : List Nat) (v : Nat),
      255 - idx = fuel → idx ≤ 255 →
      (incLoop freq loc v idx fuel).1.length = freq.length ∧
      (incLoop freq loc v idx fuel).2.1.length = loc.length ∧
      idx ≤ (incLoop freq loc v idx fuel).2.2 ∧ (incLoop freq loc v idx fuel).2.2 ≤ 255 := by
  intro fuel
  induction fuel with
  | zero =>
    intro idx freq loc v hfuel hle
    have : idx = 255 := by omega
    subst this
    rw [incLoop]
    exact ⟨rfl, rfl, le_refl _, le_refl _⟩
  | succ f ih =>
    intro idx freq loc v hfuel hle
    have hlt : idx < 255 := by omega
    rw [incLoop]
    rw [if_pos hlt]
    dsimp only
    split
    · have h := ih (idx + 1) (freq.set idx (freq.getD (idx + 1) (0, 0)))
        (loc.set (freq.getD (idx + 1) (0, 0)).1
          (loc.getD (freq.getD (idx + 1) (0, 0)).1 0 - 1)) v (by omega) (by omega)
      simp only [List.length_set] at h
      exact ⟨h.1, h.2.1, by omega, h.2.2.2⟩
    · exact ⟨rfl, rfl, le_refl _, show idx ≤ 255 by omega⟩

open FreqTable in
/-- The `Increase` bubble loop, followed by the final write of the pending
pair, restores the invariant. -/
lemma incLoop_invariant :
    ∀ (fuel idx : Nat) (freq : List (Nat × Nat)) (loc : List Nat) (k v : Nat),
      255 - idx = fuel → freq.length = 256 → loc.length = 256 → idx < 256 → k < 256 →
      (∀ i, i < 256 → i ≠ idx → (freq.getD i (0, 0)).1 < 256) →
      (∀ i, i < 256 → i ≠ idx → (freq.getD i (0, 0)).1 ≠ k) →
      (∀ i, i < 256 → i ≠ idx → loc.getD (freq.getD i (0, 0)).1 0 = i) →
      (∀ j, j < 256 → ∀ i, i < j → i ≠ idx → j ≠ idx →
        (freq.getD i (0, 0)).2 ≤ (freq.getD j (0, 0)).2) →
      (∀ i, i < idx → (freq.getD i (0, 0)).2 ≤ v) →
      Invariant ⟨(incLoop freq loc v idx fuel).1.set (incLoop freq loc v idx fuel).2.2 (k, v),
        (incLoop freq loc v idx fuel).2.1.set k (incLoop freq loc v idx fuel).2.2⟩ := by
  intro fuel
  induction fuel with
  | zero =>
    intro idx freq loc k v hfuel hfl hll hidx hk hkeys hkne hloc hsorted hlow
    have h255 : idx = 255 := by omega
    subst h255
    rw [incLoop]
    exact set_final_invariant freq loc 255 k v hfl hll hidx hk hkeys hkne hloc hsorted
      (by omega) hlow
  | succ f ih =>
    intro idx freq loc k v hfuel hfl hll hidx hk hkeys hkne hloc hsorted hlow
    have hlt : idx < 255 := by omega
    rw [incLoop]
    rw [if_pos hlt]
    dsimp only
    split
    · -- shift freq[idx+1] down to slot idx, hole moves up to idx+1
      rename_i hcond
      set next := freq.getD (idx + 1) (0, 0) with hnext
      have hlocn : loc.getD next.1 0 = idx + 1 := hloc (idx + 1) (by omega) (by omega)
      rw [hlocn]
      have hkeyinj : ∀ i1 i2, i1 < 256 → i2 < 256 → i1 ≠ idx → i2 ≠ idx →
          (freq.getD i1 (0, 0)).1 = (freq.getD i2 (0, 0)).1 → i1 = i2 := by
        intro i1 i2 h1 h2 hn1 hn2 heq
        have e1 := hloc i1 h1 hn1
        have e2 := hloc i2 h2 hn2
        rw [heq] at e1
        omega
      have hstep : idx + 1 - 1 = idx := by omega
      rw [hstep]
      apply ih (idx + 1) (freq.set idx next) (loc.set next.1 idx) k v (by omega)
      · rw [List.length_set]; exact hfl
      · rw [List.length_set]; exact hll
      · omega
      · exact hk
      · intro i hi hne
        rcases eq_or_ne i idx with rfl | hne2
        · rw [getD_set_self _ _ _ _ (by omega)]
          exact hkeys (i + 1) (by omega) (by omega)
        · rw [getD_set_ne _ _ _ (fun h => hne2 h.symm)]
          exact hkeys i hi hne2
      · intro i hi hne
        rcases eq_or_ne i idx with rfl | hne2
        · rw [getD_set_self _ _ _ _ (by omega)]
          exact hkne (i + 1) (by omega) (by omega)
        · rw [getD_set_ne _ _ _ (fun h => hne2 h.symm)]
          exact hkne i hi hne2
      · intro i hi hne
        rcases eq_or_ne i idx with rfl | hne2
        · rw [getD_set_self _ _ _ _ (by omega)]
          exact getD_set_self _ _ _ _ (by rw [hll]; exact hkeys (i + 1) (by omega) (by omega))
        · rw [getD_set_ne _ _ _ (fun h => hne2 h.symm)]
          have hknen : (freq.getD i (0, 0)).1 ≠ next.1 := by
            intro heq
            have := hkeyinj i (idx + 1) hi (by omega) hne2 (by omega) heq
            omega
          rw [getD_set_ne _ _ _ (fun h => hknen h.symm)]
          exact hloc i hi hne2
      · intro j2 hj2 i hi hne1 hne2
        rcases eq_or_ne j2 idx with rfl | hj2ne
        · rw [getD_set_self _ _ _ _ (by omega)]
          rcases eq_or_ne i j2 with rfl | hine
          · omega
          · rw [getD_set_ne _ _ _ (fun h => hine h.symm)]
            exact hsorted (j2 + 1) (by omega) i (by omega) hine (by omega)
        · rw [getD_set_ne _ _ _ (fun h => hj2ne h.symm)]
          rcases eq_or_ne i idx with rfl | hine
          · rw [getD_set_self _ _ _ _ (by omega)]
            exact hsorted j2 hj2 (i + 1) (by omega) (by omega) hj2ne
          · rw [getD_set_ne _ _ _ (fun h => hine h.symm)]
            exact hsorted j2 hj2 i hi hine hj2ne
      · intro i hi
        rcases eq_or_ne i idx with rfl | hne
        · rw [getD_set_self _ _ _ _ (by omega)]
          omega
        · rw [getD_set_ne _ _ _ (fun h => hne h.symm)]
          exact hlow i (by omega)
    · -- loop exit: v does not exceed freq[idx+1], write at idx
      rename_i hcond
      apply set_final_invariant freq loc idx k v hfl hll hidx hk hkeys hkne hloc
        hsorted ?_ hlow
      intro m hm hm2
      rcases eq_or_ne m (idx + 1) with rfl | hne
      · omega
      · calc v ≤ (freq.getD (idx + 1) (0, 0)).2 := by omega
        _ ≤ (freq.getD m (0, 0)).2 :=
          hsorted m hm2 (idx + 1) (by omega) (by omega) (by omega)

open FreqTable in
/-- Under the invariant the location index and key array are mutually
inverse: `location_[k]` is in range and `freq_[location_[k]].first == k`. -/
lemma invariant_loc_key (t : FreqTable) (ht : Invariant t) {k : Nat} (hk : k < 256) :
    t.location.getD k 0 < 256 ∧ t.key (t.location.getD k 0) = k := by
  obtain ⟨hfl, hll, hkeys, hloc, hadj⟩ := ht
  have hinj : Function.Injective (fun i : Fin 256 => (⟨t.key i.1, hkeys i.1 i.2⟩ : Fin 256)) := by
    intro a b hab
    have hkk : t.key a.1 = t.key b.1 := congrArg Fin.val hab
    have h1 := hloc a.1 a.2
    have h2 := hloc b.1 b.2
    rw [hkk] at h1
    exact Fin.ext (by omega)
  have hsurj := Finite.injective_iff_surjective.mp hinj
  obtain ⟨i, hi⟩ := hsurj ⟨k, hk⟩
  have hkey : t.key i.1 = k := congrArg Fin.val hi
  have hlocn : t.location.getD k 0 = i.1 := by
    rw [← hkey]
    exact hloc i.1 i.2
  refine ⟨?_, ?_⟩
  · rw [hlocn]; exact i.2
  · rw [hlocn, hkey]

open FreqTable in
/-- Adjacent ascent gives full ascent. -/
lemma invariant_sorted_le (t : FreqTable) (ht : Invariant t) :
    ∀ j, j < 256 → ∀ i, i ≤ j → t.count i ≤ t.count j := by
  obtain ⟨_, _, _, _, hadj⟩ := ht
  have hstep : ∀ d i, i + d < 256 → t.count i ≤ t.count (i + d) := by
    intro d
    induction d with
    | zero => intro i _; exact le_refl _
    | succ e ihe =>
      intro i hi
      calc t.count i ≤ t.count (i + e) := ihe i (by omega)
      _ ≤ t.count (i + e + 1) := hadj (i + e) (by omega)
  intro j hj i hij
  have h := hstep (j - i) i (by omega)
  rw [show i + (j - i) = j by omega] at h
  exact h

open FreqTable in
/-- `Decrease` preserves the invariant (both on failure and on success). -/
lemma Decrease_invariant (t : FreqTable) (k d : Nat) (ht : Invariant t) (hk : k < 256) :
    Invariant (t.Decrease k d).2 := by
  obtain ⟨hfi, hkeyfi⟩ := invariant_loc_key t ht hk
  obtain ⟨hfl, hll, hkeys, hloc, hadj⟩ := ht
  have hsort := invariant_sorted_le t ⟨hfl, hll, hkeys, hloc, hadj⟩
  rw [FreqTable.Decrease]
  split
  · exact ⟨hfl, hll, hkeys, hloc, hadj⟩
  · rename_i hguard
    dsimp only
    have hpair : (t.freq.getD (t.location.getD k 0) (0, 0)).1 = k := hkeyfi
    rw [hpair]
    apply decLoop_invariant (t.location.getD k 0) t.freq t.location k _ hfl hll hfi hk
    · intro i hi _
      exact hkeys i hi
    · intro i hi hne heq
      have h2 : t.location.getD (t.key i) 0 = i := hloc i hi
      rw [show t.key i = k from heq] at h2
      omega
    · intro i hi _
      exact hloc i hi
    · intro j hj i hij _ _
      exact hsort j hj i (by omega)
    · intro m hm hm2
      have h1 : t.count (t.location.getD k 0) ≤ t.count m := hsort m hm2 _ (by omega)
      have h2 : t.count (t.location.getD k 0) =
          (t.freq.getD (t.location.getD k 0) (0, 0)).2 := rfl
      have h3 : t.count m = (t.freq.getD m (0, 0)).2 := rfl
      rw [h2, h3] at h1
      omega

open FreqTable in
/-- `Increase` preserves the invariant when the uint64 addition does not
wrap. -/
lemma Increase_invariant (t : FreqTable) (k d : Nat) (ht : Invariant t) (hk : k < 256)
    (hnov : t.countOf k + d < 2 ^ 64) :
    Invariant (t.Increase k d) := by
  obtain ⟨hfi, hkeyfi⟩ := invariant_loc_key t ht hk
  obtain ⟨hfl, hll, hkeys, hloc, hadj⟩ := ht
  have hsort := invariant_sorted_le t ⟨hfl, hll, hkeys, hloc, hadj⟩
  rw [FreqTable.Increase]
  dsimp only
  have hmod : ((t.freq.getD (t.location.getD k 0) (0, 0)).2 + d) % 2 ^ 64 =
      (t.freq.getD (t.location.getD k 0) (0, 0)).2 + d :=
    Nat.mod_eq_of_lt hnov
  rw [hmod]
  have hpair : (t.freq.getD (t.location.getD k 0) (0, 0)).1 = k := hkeyfi
  rw [hpair]
  apply incLoop_invariant (255 - t.location.getD k 0) (t.location.getD k 0)
    t.freq t.location k _ rfl hfl hll hfi hk
  · intro i hi _
    exact hkeys i hi
  · intro i hi hne heq
    have h2 : t.location.getD (t.key i) 0 = i := hloc i hi
    rw [show t.key i = k from heq] at h2
    omega
  · intro i hi _
    exact hloc i hi
  · intro j hj i hij _ _
    exact hsort j hj i (by omega)
  · intro i hi
    have h1 : t.count i ≤ t.count (t.location.getD k 0) := hsort _ hfi i (by omega)
    have h2 : t.count (t.location.getD k 0) =
        (t.freq.getD (t.location.getD k 0) (0, 0)).2 := rfl
    have h3 : t.count i = (t.freq.getD i (0, 0)).2 := rfl
    rw [h2, h3] at h1
    omega

lemma foldl_set_length (freq : List (Nat × Nat)) :
    ∀ (L : List Nat) (loc : List Nat),
      (L.foldl (fun l i => l.set (freq.getD i (0, 0)).1 i) loc).length = loc.length := by
  intro L
  induction L with
  | nil => intro loc; rfl
  | cons a L ih =>
    intro loc
    rw [List.foldl_cons, ih, List.length_set]

lemma foldl_set_untouched (freq : List (Nat × Nat)) :
    ∀ (L : List Nat) (loc : List Nat) (p : Nat),
      (∀ i ∈ L, (freq.getD i (0, 0)).1 ≠ p) →
      (L.foldl (fun l i => l.set (freq.getD i (0, 0)).1 i) loc).getD p 0 =
        loc.getD p 0 := by
  intro L
  induction L with
  | nil => intro loc p _; rfl
  | cons a L ih =>
    intro loc p hne
    rw [List.foldl_cons, ih _ p (fun i hi => hne i (List.mem_cons_of_mem a hi))]
    exact getD_set_ne _ _ _ (hne a (List.mem_cons_self a L))

lemma foldl_set_hits (freq : List (Nat × Nat)) :
    ∀ (L : List Nat) (loc : List Nat) (j : Nat), j ∈ L →
      (∀ j2 ∈ L, (freq.getD j2 (0, 0)).1 = (freq.getD j (0, 0)).1 → j2 = j) →
      (freq.getD j (0, 0)).1 < loc.length →
      (L.foldl (fun l i => l.set (freq.getD i (0, 0)).1 i) loc).getD
        (freq.getD j (0, 0)).1 0 = j := by
  intro L
  induction L with
  | nil => intro loc j hj; exact absurd hj (List.not_mem_nil j)
  | cons a L ih =>
    intro loc j hj huniq hlen
    rw [List.foldl_cons]
    by_cases hjL : j ∈ L
    · exact ih _ j hjL
        (fun j2 hj2 => huniq j2 (List.mem_cons_of_mem a hj2))
        (by rw [List.length_set]; exact hlen)
    · have hja : j = a := by
        rcases List.mem_cons.mp hj with h | h
        · exact h
        · exact absurd h hjL
      subst hja
      rw [foldl_set_untouched freq L _ _ ?_]
      · exact getD_set_self _ _ _ _ hlen
      · intro i hi heq
        have := huniq i (List.mem_cons_of_mem j hi) heq
        subst this
        exact hjL hi

instance : IsTotal (Nat × Nat) (fun a b => a.2 ≤ b.2) :=
  ⟨fun a b => Nat.le_total a.2 b.2⟩

instance : IsTrans (Nat × Nat) (fun a b => a.2 ≤ b.2) :=
  ⟨fun _ _ _ hab hbc => le_trans hab hbc⟩

open FreqTable in
/-- `InitLocations` on a 256-entry array with distinct byte keys yields a
consistent table. -/
lemma invariant_mk_of (s : List (Nat × Nat)) (loc : List Nat)
    (hlocdef : loc = initLocations s)
    (hlen : s.length = 256)
    (hkeymem : ∀ i, i < 256 → (s.getD i (0, 0)).1 < 256)
    (hkeyuniq : ∀ i j, i < 256 → j < 256 →
      (s.getD i (0, 0)).1 = (s.getD j (0, 0)).1 → i = j)
    (hsorted : ∀ i, i < 255 → (s.getD i (0, 0)).2 ≤ (s.getD (i + 1) (0, 0)).2) :
    Invariant ⟨s, loc⟩ := by
  have hloclen : loc.length = 256 := by
    rw [hlocdef, initLocations, foldl_set_length, List.length_replicate]
  refine ⟨hlen, hloclen, ?_, ?_, ?_⟩
  · intro i hi
    exact hkeymem i hi
  · intro i hi
    show loc.getD (s.getD i (0, 0)).1 0 = i
    rw [hlocdef, initLocations]
    apply foldl_set_hits s (List.range 256) _ i (List.mem_range.mpr hi)
    · intro j2 hj2 heq
      exact hkeyuniq j2 i (List.mem_range.mp hj2) hi heq
    · rw [List.length_replicate]
      exact hkeymem i hi
  · intro i hi
    exact hsorted i hi

open FreqTable in
/-- The constructor `FreqTable::FreqTable(uint64*)` establishes the
invariant: sorting and `InitLocations` produce a consistent table. -/
lemma ofFreqs_invariant (frequencies : List Nat) : Invariant (ofFreqs frequencies) := by
  simp only [FreqTable.ofFreqs]
  apply invariant_mk_of _ _ rfl
  case hlen =>
    rw [(List.perm_insertionSort _ _).length_eq, List.length_map, List.length_range]
  case hkeymem =>
    intro i hi
    set s := List.insertionSort (fun a b : Nat × Nat => a.2 ≤ b.2)
      ((List.range 256).map (fun i => (i, frequencies.getD i 0)))
    have hperm : s.Perm ((List.range 256).map (fun i => (i, frequencies.getD i 0))) :=
      List.perm_insertionSort _ _
    have hlen : s.length = 256 := by
      rw [hperm.length_eq, List.length_map, List.length_range]
    have hi' : i < s.length := by omega
    rw [List.getD_eq_getElem _ _ hi']
    have hmem2 : s[i] ∈ (List.range 256).map (fun i => (i, frequencies.getD i 0)) :=
      hperm.mem_iff.mp (List.getElem_mem hi')
    obtain ⟨a, ha, heq⟩ := List.mem_map.mp hmem2
    rw [← heq]
    exact List.mem_range.mp ha
  case hkeyuniq =>
    intro i j hi hj heq
    set s := List.insertionSort (fun a b : Nat × Nat => a.2 ≤ b.2)
      ((List.range 256).map (fun i => (i, frequencies.getD i 0)))
    have hperm : s.Perm ((List.range 256).map (fun i => (i, frequencies.getD i 0))) :=
      List.perm_insertionSort _ _
    have hlen : s.length = 256 := by
      rw [hperm.length_eq, List.length_map, List.length_range]
    have hkeysnodup : (s.map Prod.fst).Nodup := by
      refine ((hperm.map Prod.fst).nodup_iff).mpr ?_
      rw [List.map_map]
      have hcomp : (Prod.fst ∘ fun i : Nat => (i, frequencies.getD i 0)) = id := rfl
      rw [hcomp, List.map_id]
      exact List.nodup_range 256
    have hi' : i < s.length := by omega
    have hj' : j < s.length := by omega
    have hmi : i < (s.map Prod.fst).length := by rw [List.length_map]; omega
    have hmj : j < (s.map Prod.fst).length := by rw [List.length_map]; omega
    have hgeq : (s.map Prod.fst).get ⟨i, hmi⟩ = (s.map Prod.fst).get ⟨j, hmj⟩ := by
      simp only [List.get_eq_getElem, List.getElem_map]
      rw [List.getD_eq_getElem _ _ hi', List.getD_eq_getElem _ _ hj'] at heq
      exact heq
    exact congrArg Fin.val ((hkeysnodup.get_inj_iff).mp hgeq)
  case hsorted =>
    intro i hi
    set s := List.insertionSort (fun a b : Nat × Nat => a.2 ≤ b.2)
      ((List.range 256).map (fun i => (i, frequencies.getD i 0)))
    have hperm : s.Perm ((List.range 256).map (fun i => (i, frequencies.getD i 0))) :=
      List.perm_insertionSort _ _
    have hlen : s.length = 256 := by
      rw [hperm.length_eq, List.length_map, List.length_range]
    have hsorted : List.Sorted (fun a b : Nat × Nat => a.2 ≤ b.2) s :=
      List.sorted_insertionSort _ _
    have hi1 : i < s.length := by omega
    have hi2 : i + 1 < s.length := by omega
    rw [List.getD_eq_getElem _ _ hi1, List.getD_eq_getElem _ _ hi2]
    exact List.pairwise_iff_getElem.mp hsorted i (i + 1) hi1 hi2 (by omega)

open FreqTable in
/-- C2: for every table state, `Decrease(k, d)` with `d` exceeding `k`'s
current count returns failure and leaves the whole table bit-identical;
otherwise (on a well-formed table with byte key `k`) it succeeds and
subtracts `d` from `k`'s count. -/
theorem C2_decrease_no_mutation_on_failure :
    ∀ (t : FreqTable) (k d : Nat),
      (t.countOf k < d → t.Decrease k d = (false, t)) ∧
      (Invariant t → k < 256 → d ≤ t.countOf k →
        (t.Decrease k d).1 = true ∧
        (t.Decrease k d).2.countOf k = t.countOf k - d) := by
  intro t k d
  constructor
  · intro h
    have h' : (t.freq.getD (t.location.getD k 0) (0, 0)).2 < d := h
    simp only [FreqTable.Decrease]
    rw [if_pos h']
  · intro hinv hk hd
    obtain ⟨hfi, hkeyfi⟩ := invariant_loc_key t hinv hk
    obtain ⟨hfl, hll, hkeys, hloc, hadj⟩ := hinv
    have hcount : t.countOf k = (t.freq.getD (t.location.getD k 0) (0, 0)).2 := rfl
    have hguard : ¬ ((t.freq.getD (t.location.getD k 0) (0, 0)).2 < d) := by omega
    simp only [FreqTable.Decrease]
    rw [if_neg hguard]
    have hkey : (t.freq.getD (t.location.getD k 0) (0, 0)).1 = k := hkeyfi
    rw [hkey]
    refine ⟨rfl, ?_⟩
    have hdl := decLoop_facts (t.location.getD k 0) t.freq t.location
      ((t.freq.getD (t.location.getD k 0) (0, 0)).2 - d)
    set res := decLoop t.freq t.location
      ((t.freq.getD (t.location.getD k 0) (0, 0)).2 - d) (t.location.getD k 0) with hres
    show ((res.1.set res.2.2 (k, (t.freq.getD (t.location.getD k 0) (0, 0)).2 - d)).getD
      ((res.2.1.set k res.2.2).getD k 0) (0, 0)).2 = _
    rw [getD_set_self _ _ _ _ (by rw [hdl.2.1, hll]; omega)]
    rw [getD_set_self _ _ _ _ (by rw [hdl.1, hfl]; omega)]
    rw [hcount]

/-- Witness for C2: on the table built from frequencies `0,1,…,255`,
decreasing key 3 by 500 fails without mutation, and decreasing key 5 by 1
succeeds and leaves key 5 with count 4. -/
theorem C2_witness :
    (FreqTable.ofFreqs (List.range 256)).Decrease 3 500 =
      (false, FreqTable.ofFreqs (List.range 256)) ∧
    ((FreqTable.ofFreqs (List.range 256)).Decrease 5 1).1 = true ∧
    ((FreqTable.ofFreqs (List.range 256)).Decrease 5 1).2.countOf 5 =
      (FreqTable.ofFreqs (List.range 256)).countOf 5 - 1 := by
  refine ⟨(C2_decrease_no_mutation_on_failure _ 3 500).1 (by decide), ?_, ?_⟩
  · exact ((C2_decrease_no_mutation_on_failure _ 5 1).2 (by decide) (by decide) (by decide)).1
  · exact ((C2_decrease_no_mutation_on_failure _ 5 1).2 (by decide) (by decide) (by decide)).2

/-- A queued frequency-table call: `(isIncrease, key, delta)`. -/
def applyFreqOp (t : FreqTable) (op : Bool × Nat × Nat) : FreqTable :=
  if op.1 then t.Increase op.2.1 op.2.2 else (t.Decrease op.2.1 op.2.2).2

/-- A finite sequence of `Increase`/`Decrease` calls applied in order. -/
def applyFreqOps (t : FreqTable) (ops : List (Bool × Nat × Nat)) : FreqTable :=
  ops.foldl applyFreqOp t

/-- Every `Increase` in the queue finds uint64 headroom
(`count + delta < 2^64`) in the table state it is applied to, so no
count wraps. -/
def noOverflowB : FreqTable → List (Bool × Nat × Nat) → Bool
  | _, [] => true
  | t, op :: ops =>
    (!op.1 || decide (t.countOf op.2.1 + op.2.2 < 2 ^ 64)) &&
      noOverflowB (applyFreqOp t op) ops

open FreqTable in
lemma applyFreqOps_invariant :
    ∀ (ops : List (Bool × Nat × Nat)) (t : FreqTable), Invariant t →
      (∀ op ∈ ops, op.2.1 < 256) → noOverflowB t ops = true →
      Invariant (applyFreqOps t ops) := by
  intro ops
  induction ops with
  | nil => intro t ht _ _; exact ht
  | cons op ops ih =>
    intro t ht hops hnov
    rw [noOverflowB, Bool.and_eq_true] at hnov
    rw [applyFreqOps, List.foldl_cons]
    apply ih
    · by_cases hb : op.1 = true
      · rw [applyFreqOp, if_pos hb]
        apply Increase_invariant t op.2.1 op.2.2 ht (hops op (List.mem_cons_self op ops))
        have h1 := hnov.1
        rw [hb] at h1
        simp only [Bool.not_true, Bool.false_or, decide_eq_true_eq] at h1
        exact h1
      · rw [applyFreqOp, if_neg hb]
        exact Decrease_invariant t op.2.1 op.2.2 ht (hops op (List.mem_cons_self op ops))
    · intro op2 hop2
      exact hops op2 (List.mem_cons_of_mem op hop2)
    · exact hnov.2

/-- C3 counterexample: starting from every frequency at `2^63` (a valid
uint64 array) and performing the single call `Increase(5, 2^63)`, the
source's `uint64 new_value` wraps to `0`, the bubble loop does not move
the entry, and the table is left unsorted: `count 4 > count 5`.  The
original claim's own hypotheses (256 entries, byte key) hold at this
input. -/
theorem C3_counterexample :
    (List.replicate 256 (2 ^ 63) : List Nat).length = 256 ∧
    (∀ op ∈ ([(true, 5, 2 ^ 63)] : List (Bool × Nat × Nat)), op.2.1 < 256) ∧
    ¬ ((applyFreqOps (FreqTable.ofFreqs (List.replicate 256 (2 ^ 63)))
          [(true, 5, 2 ^ 63)]).count 4 ≤
        (applyFreqOps (FreqTable.ofFreqs (List.replicate 256 (2 ^ 63)))
          [(true, 5, 2 ^ 63)]).count 5) := by
  refine ⟨by simp, by decide, by decide⟩

open FreqTable in
/-- C3 (amended): a table built from a 256-entry frequency array keeps,
after any finite sequence of `Increase`/`Decrease` calls on byte keys in
which no `Increase` overflows its uint64 count, its 256 entries sorted
ascending by count, with `location_[Key(i)] == i` for every `i < 256`. -/
theorem C3_freqTable_invariant :
    ∀ (frequencies : List Nat) (ops : List (Bool × Nat × Nat)),
      frequencies.length = 256 → (∀ op ∈ ops, op.2.1 < 256) →
      noOverflowB (ofFreqs frequencies) ops = true →
      (applyFreqOps (ofFreqs frequencies) ops).freq.length = 256 ∧
      (∀ j, j < 256 → ∀ i, i ≤ j →
        (applyFreqOps (ofFreqs frequencies) ops).count i ≤
          (applyFreqOps (ofFreqs frequencies) ops).count j) ∧
      (∀ i, i < 256 →
        (applyFreqOps (ofFreqs frequencies) ops).location.getD
          ((applyFreqOps (ofFreqs frequencies) ops).key i) 0 = i) := by
  intro frequencies ops _ hops hnov
  have hT := applyFreqOps_invariant ops (ofFreqs frequencies)
    (ofFreqs_invariant frequencies) hops hnov
  refine ⟨hT.1, ?_, ?_⟩
  · exact invariant_sorted_le _ hT
  · exact hT.2.2.2.1

/-- Witness for C3 at a concrete frequency array and operation sequence. -/
theorem C3_witness :
    (List.replicate 256 0).length = 256 ∧
    (∀ op ∈ ([(true, 7, 5), (false, 7, 3), (false, 200, 1)] :
        List (Bool × Nat × Nat)), op.2.1 < 256) ∧
    noOverflowB (FreqTable.ofFreqs (List.replicate 256 0))
      [(true, 7, 5), (false, 7, 3), (false, 200, 1)] = true ∧
    ((applyFreqOps (FreqTable.ofFreqs (List.replicate 256 0))
        [(true, 7, 5), (false, 7, 3), (false, 200, 1)]).freq.length = 256 ∧
     (∀ j, j < 256 → ∀ i, i ≤ j →
       (applyFreqOps (FreqTable.ofFreqs (List.replicate 256 0))
          [(true, 7, 5), (false, 7, 3), (false, 200, 1)]).count i ≤
         (applyFreqOps (FreqTable.ofFreqs (List.replicate 256 0))
            [(true, 7, 5), (false, 7, 3), (false, 200, 1)]).count j) ∧
     (∀ i, i < 256 →
       (applyFreqOps (FreqTable.ofFreqs (List.replicate 256 0))
          [(true, 7, 5), (false, 7, 3), (false, 200, 1)]).location.getD
         ((applyFreqOps (FreqTable.ofFreqs (List.replicate 256 0))
            [(true, 7, 5), (false, 7, 3), (false, 200, 1)]).key i) 0 = i)) :=
  ⟨by simp, by decide, by decide,
    C3_freqTable_invariant (List.replicate 256 0)
      [(true, 7, 5), (false, 7, 3), (false, 200, 1)] (by simp) (by decide) (by decide)⟩

/-! ## Common-pair selection
(`commonpairs::FindReplaceablePairs`, src/preprocessors/preprocessor.cc:231-294)

The C++ routine repeatedly `partial_sort`s the 65536-entry
`(pair, frequency)` array in descending frequency order and walks it with
`current_pair`.  The embedding abstracts that interleaved sorting as the
*scan order*: the function below consumes the `(pair, frequency)` entries
in the order the C++ loop would visit them (descending frequency), given
as its input list.  Every property proved below holds for every scan
order.  A pair code is a `uint16` whose high byte is the first symbol and
low byte the second. -/

/-- One iteration of the `while(replaceable_pairs->size() < 254)` loop:
skip equal-byte pairs, tentatively decrease both symbol counts (rolling
back on failure), stop at condition (p1), reject conflicting pairs, else
select.  Returns the selected pairs and the final frequency table. -/
def findLoop (freqs : FreqTable) (chosen : List (Nat × Nat)) :
    List (Nat × Nat) → List (Nat × Nat) × FreqTable
  | [] => (chosen, freqs)
  | pf :: rest =>
    if 254 ≤ chosen.length then (chosen, freqs)
    else
      let fst := (pf.1 &&& 0xFF00) >>> 8
      let snd := pf.1 &&& 0x00FF
      if fst = snd then findLoop freqs chosen rest
      else
        let d1 := freqs.Decrease fst pf.2
        if !d1.1 then findLoop d1.2 chosen rest
        else
          let d2 := d1.2.Decrease snd pf.2
          if !d2.1 then findLoop (d2.2.Increase fst pf.2) chosen rest
          else
            if d2.2.count chosen.length + 3 ≥ pf.2 then
              (chosen, (d2.2.Increase fst pf.2).Increase snd pf.2)
            else
              if chosen.any (fun q =>
                  ((q.1 &&& 0xFF00) >>> 8 == snd) || (q.1 &&& 0x00FF == fst)) then
                findLoop ((d2.2.Increase fst pf.2).Increase snd pf.2) chosen rest
              else
                findLoop d2.2 (chosen ++ [pf]) rest

/-- `commonpairs::FindReplaceablePairs`: scan the pair frequencies (in the
order produced by the descending partial sorts) starting from an empty
selection. -/
def FindReplaceablePairs (pairs : List (Nat × Nat)) (freqs : FreqTable) :
    List (Nat × Nat) × FreqTable :=
  findLoop freqs [] pairs

/-- Selection invariant of the loop: no selected pair's first byte equals
any selected pair's second byte (itself included). -/
lemma findLoop_conflict_free :
    ∀ (pairs : List (Nat × Nat)) (freqs : FreqTable) (chosen : List (Nat × Nat)),
      (∀ q ∈ chosen, ∀ q2 ∈ chosen, (q.1 &&& 0xFF00) >>> 8 ≠ q2.1 &&& 0x00FF) →
      ∀ q ∈ (findLoop freqs chosen pairs).1, ∀ q2 ∈ (findLoop freqs chosen pairs).1,
        (q.1 &&& 0xFF00) >>> 8 ≠ q2.1 &&& 0x00FF := by
  intro pairs
  induction pairs with
  | nil => intro freqs chosen hinv; exact hinv
  | cons pf rest ih =>
    intro freqs chosen hinv
    rw [findLoop]
    split
    · exact hinv
    · dsimp only
      split
      · exact ih freqs chosen hinv
      · rename_i hfs
        split
        · exact ih _ chosen hinv
        · split
          · exact ih _ chosen hinv
          · split
            · exact hinv
            · split
              · exact ih _ chosen hinv
              · rename_i hany
                apply ih
                intro q hq q2 hq2
                have hfalse : (chosen.any fun r =>
                    ((r.1 &&& 0xFF00) >>> 8 == pf.1 &&& 0x00FF) ||
                      (r.1 &&& 0x00FF == (pf.1 &&& 0xFF00) >>> 8)) = false :=
                  Bool.of_not_eq_true hany
                have hany' : ∀ r ∈ chosen,
                    (r.1 &&& 0xFF00) >>> 8 ≠ pf.1 &&& 0x00FF ∧
                    r.1 &&& 0x00FF ≠ (pf.1 &&& 0xFF00) >>> 8 := by
                  intro r hr
                  have h2 := List.any_eq_false.mp hfalse r hr
                  simp only [Bool.or_eq_true, beq_iff_eq, not_or] at h2
                  exact h2
                rcases List.mem_append.mp hq with hqc | hqp
                · rcases List.mem_append.mp hq2 with hq2c | hq2p
                  · exact hinv q hqc q2 hq2c
                  · rw [List.mem_singleton.mp hq2p]
                    exact (hany' q hqc).1
                · rw [List.mem_singleton.mp hqp]
                  rcases List.mem_append.mp hq2 with hq2c | hq2p
                  · intro heq
                    exact (hany' q2 hq2c).2 heq.symm
                  · rw [List.mem_singleton.mp hq2p]
                    exact hfs

/-- C6: the selected pair set is conflict-free — no byte chosen as a first
symbol of one selected pair appears as the second symbol of any selected
pair (and vice versa, by symmetry of the quantification). -/
theorem C6_selected_pairs_conflict_free :
    ∀ (pairs : List (Nat × Nat)) (freqs : FreqTable) (q q2 : Nat × Nat),
      q ∈ (FindReplaceablePairs pairs freqs).1 →
      q2 ∈ (FindReplaceablePairs pairs freqs).1 →
      (q.1 &&& 0xFF00) >>> 8 ≠ q2.1 &&& 0x00FF := by
  intro pairs freqs q q2 hq hq2
  exact findLoop_conflict_free pairs freqs []
    (by intro r hr; exact absurd hr (List.not_mem_nil r)) q hq q2 hq2

/-- Witness for C6: a run that selects the pair `(0x01, 0x02)`. -/
theorem C6_witness :
    ((0x0102, 10) ∈
      (FindReplaceablePairs [(0x0102, 10)]
        (FreqTable.ofFreqs (List.replicate 256 10))).1) ∧
    ((0x0102 : Nat) &&& 0xFF00) >>> 8 ≠ (0x0102 : Nat) &&& 0x00FF :=
  ⟨by decide,
    C6_selected_pairs_conflict_free [(0x0102, 10)]
      (FreqTable.ofFreqs (List.replicate 256 10)) (0x0102, 10) (0x0102, 10)
      (by decide) (by decide)⟩

/-- C10: the selection never contains a pair whose two bytes are equal:
the `fst == snd` guard skips every ordered 2-gram `(b, b)` regardless of
frequency. -/
theorem C10_no_equal_byte_pair_selected :
    ∀ (pairs : List (Nat × Nat)) (freqs : FreqTable) (q : Nat × Nat),
      q ∈ (FindReplaceablePairs pairs freqs).1 →
      (q.1 &&& 0xFF00) >>> 8 ≠ q.1 &&& 0x00FF := by
  intro pairs freqs q hq
  exact findLoop_conflict_free pairs freqs []
    (by intro r hr; exact absurd hr (List.not_mem_nil r)) q hq q hq

/-- Witness for C10: a run that selects the pair `(0x03, 0x04)`. -/
theorem C10_witness :
    ((0x0304, 12) ∈
      (FindReplaceablePairs [(0x0304, 12)]
        (FreqTable.ofFreqs (List.replicate 256 12))).1) ∧
    ((0x0304 : Nat) &&& 0xFF00) >>> 8 ≠ (0x0304 : Nat) &&& 0x00FF :=
  ⟨by decide,
    C10_no_equal_byte_pair_selected [(0x0304, 12)]
      (FreqTable.ofFreqs (List.replicate 256 12)) (0x0304, 12) (by decide)⟩

/-! ## Pair rewriting
(`commonpairs::WriteReplacements`, src/preprocessors/preprocessor.cc:346-378)

The rewriter walks the block keeping a sliding `uint16` 2-gram `pair`; at
each step it either copies the older byte, escapes it, or replaces the
2-gram by its substitute byte.  `replacements` is the 65536-entry map;
`f` is the source buffer (the block data plus the 3 bytes of headroom the
caller guarantees — the scan reads `from[i]` at the loop head before the
range test, so on a length-1 block it touches `from[1]`).  `WriteReplacements`
returns the written bytes (the C++ function returns their count,
`result_index`); `none` models a failure of the in-loop
`assert(i == length - 1)`. -/

mutual
/-- One iteration of the `while(1)` loop body (the three-way branch on
`replacements[pair]`). -/
def wrLoop (repl : Nat → Nat) (f : List Nat) (len common escape : Nat)
    (pair i : Nat) (out : List Nat) : Option (List Nat) :=
  let pair1 := ((pair <<< 8) % 65536) ||| f.getD i 0
  if repl pair1 = common then
    wrEnd repl f len common escape pair1 i (out ++ [f.getD (i - 1) 0])
  else if repl pair1 = escape then
    wrEnd repl f len common escape pair1 i (out ++ [escape, f.getD (i - 1) 0])
  else
    let out1 := out ++ [repl pair1]
    if i = len - 1 then some out1
    else wrEnd repl f len common escape (f.getD (i + 1) 0) (i + 1) out1
termination_by (len - i, 1)
decreasing_by
  all_goals first
    | exact Prod.Lex.right _ (by omega)
    | (rcases Nat.lt_or_ge (i + 1) len with h | h
       · exact Prod.Lex.left _ _ (by omega)
       · have he : len - (i + 1) = len - i := by omega
         rw [he]
         exact Prod.Lex.right _ (by omega))

/-- The end-of-block check at the bottom of the loop body: on
`i >= length - 1` assert `i == length - 1`, write the trailing byte (with
an escape prefix when it equals the active escape byte), and stop. -/
def wrEnd (repl : Nat → Nat) (f : List Nat) (len common escape : Nat)
    (pair i : Nat) (out : List Nat) : Option (List Nat) :=
  if len - 1 ≤ i then
    if i = len - 1 then
      some ((if f.getD i 0 = escape ∧ escape ≠ common then out ++ [escape] else out)
        ++ [f.getD i 0])
    else none
  else wrLoop repl f len common escape pair (i + 1) out
termination_by (len - i, 0)
decreasing_by
  exact Prod.Lex.left _ _ (by omega)
end

/-- `commonpairs::WriteReplacements`: `pair = from[0]; i = 1;` then the loop. -/
def WriteReplacements (repl : Nat → Nat) (f : List Nat) (len common escape : Nat) :
    Option (List Nat) :=
  wrLoop repl f len common escape (f.getD 0 0) 1 []

/-- C1 (failing input): on a length-1 block — as produced by
`CompressCommonPairs` on such a block: no pair selected, every
`replacements` entry equal to `common_byte`, `escape_byte == common_byte` —
the rewrite loop starts at `i = 1 == length`, so the end-of-block
`assert(i == length - 1)` fails and no byte count bounded by `length + 3`
is ever returned (with assertions disabled the function writes two payload
bytes, for a total of `3 + 2 > 1 + 3`, past the end of the `length + 3`
buffer).  The junk bytes `j1 j2 j3` in the headroom are arbitrary. -/
theorem C1_writeReplacements_length1_assert_failure :
    ∀ (c b j1 j2 j3 : Nat),
      WriteReplacements (fun _ => c) [b, j1, j2, j3] 1 c c = none := by
  intro c b j1 j2 j3
  rw [WriteReplacements]
  rw [wrLoop.eq_def]
  rw [if_pos rfl]
  rw [wrEnd.eq_def]
  norm_num

/-! ## Block-header sectioning

`HuffmanEncoder::writeBlockHeader` (src/HuffmanCoders.cpp:317-355) and
`WaveletEncoder::writeBlockHeader` (src/WaveletCoders.cpp:173-219) contain
the same aggregation loop: accumulate the per-context statistics left to
right, closing a section whenever the running sum reaches 10000, then fold
a nonzero remainder into the last section (or make it the only section),
overwrite `stats` with the section lengths, and emit the section count as
one byte with 0 coding 256. -/

/-- The aggregation loop (`for i; sum += s[i]; if(sum >= 10000) push, reset`).
Returns the closed sections appended to `temp` plus the final running sum. -/
def sectionLoop : List Nat → Nat → List Nat → List Nat × Nat
  | [], sum, temp => (temp, sum)
  | x :: xs, sum, temp =>
    if 10000 ≤ sum + x then sectionLoop xs 0 (temp ++ [sum + x])
    else sectionLoop xs (sum + x) temp

/-- `temp.back() += sum`. -/
def addLast : List Nat → Nat → List Nat
  | [], _ => []
  | [a], v => [a + v]
  | a :: b :: rest, v => a :: addLast (b :: rest) v

/-- The full sectioning transformation: run the loop, then the
`if (sum != 0)` remainder fold. -/
def sectionize (stats : List Nat) : List Nat :=
  let res := sectionLoop stats 0 []
  if res.2 ≠ 0 then
    if 0 < res.1.length then addLast res.1 res.2
    else [res.2]
  else res.1

/-- The emitted count byte: `if(temp.size() == 256) len = 0 else len = size`
(cast to `byte`). -/
def sectionCountByte (m : Nat) : Nat :=
  if m = 256 then 0 else m % 256

/-- Decoder side (`HuffmanDecoder::readBlockHeader` /
`WaveletDecoder::readBlockHeader`): `sects = (sections == 0) ? 256 : sections`. -/
def decodeSectionCount (b : Nat) : Nat :=
  if b = 0 then 256 else b

/-- Spec characterization: the sections the scan closes — a section is
closed exactly when the running sum first reaches 10000. -/
def closedSections : Nat → List Nat → List Nat
  | _, [] => []
  | sum, x :: xs =>
    if 10000 ≤ sum + x then (sum + x) :: closedSections 0 xs
    else closedSections (sum + x) xs

/-- Spec characterization: the remainder left after the scan. -/
def leftoverSum : Nat → List Nat → Nat
  | sum, [] => sum
  | sum, x :: xs =>
    if 10000 ≤ sum + x then leftoverSum 0 xs else leftoverSum (sum + x) xs

lemma sectionLoop_eq :
    ∀ (xs : List Nat) (sum : Nat) (temp : List Nat),
      sectionLoop xs sum temp = (temp ++ closedSections sum xs, leftoverSum sum xs) := by
  intro xs
  induction xs with
  | nil => intro sum temp; simp [sectionLoop, closedSections, leftoverSum]
  | cons x xs ih =>
    intro sum temp
    rw [sectionLoop, closedSections, leftoverSum]
    split
    · rw [ih]
      simp
    · rw [ih]

lemma closedSections_ge :
    ∀ (xs : List Nat) (sum : Nat), ∀ c ∈ closedSections sum xs, 10000 ≤ c := by
  intro xs
  induction xs with
  | nil => intro sum c hc; simp [closedSections] at hc
  | cons x xs ih =>
    intro sum c hc
    rw [closedSections] at hc
    split at hc
    · rcases List.mem_cons.mp hc with rfl | hc2
      · omega
      · exact ih 0 c hc2
    · exact ih (sum + x) c hc

lemma leftoverSum_lt :
    ∀ (xs : List Nat) (sum : Nat), sum < 10000 → leftoverSum sum xs < 10000 := by
  intro xs
  induction xs with
  | nil => intro sum h; exact h
  | cons x xs ih =>
    intro sum h
    rw [leftoverSum]
    split
    · exact ih 0 (by omega)
    · rename_i hlt
      exact ih (sum + x) (by omega)

lemma closedSections_sum :
    ∀ (xs : List Nat) (sum : Nat),
      (closedSections sum xs).sum + leftoverSum sum xs = sum + xs.sum := by
  intro xs
  induction xs with
  | nil => intro sum; simp [closedSections, leftoverSum]
  | cons x xs ih =>
    intro sum
    rw [closedSections, leftoverSum]
    split
    · simp only [List.sum_cons]
      have := ih 0
      omega
    · have := ih (sum + x)
      simp only [List.sum_cons]
      omega

lemma closedSections_length :
    ∀ (xs : List Nat) (sum : Nat), (closedSections sum xs).length ≤ xs.length := by
  intro xs
  induction xs with
  | nil => intro sum; simp [closedSections]
  | cons x xs ih =>
    intro sum
    rw [closedSections]
    split
    · simp only [List.length_cons]
      have := ih 0
      omega
    · have := ih (sum + x)
      simp only [List.length_cons]
      omega

lemma addLast_sum : ∀ (l : List Nat) (v : Nat), l ≠ [] →
    (addLast l v).sum = l.sum + v := by
  intro l
  induction l with
  | nil => intro v h; exact absurd rfl h
  | cons a l ih =>
    intro v _
    cases l with
    | nil => simp [addLast]
    | cons b rest =>
      rw [addLast]
      simp only [List.sum_cons]
      rw [ih v (by simp)]
      simp only [List.sum_cons]
      omega

lemma addLast_length : ∀ (l : List Nat) (v : Nat), (addLast l v).length = l.length := by
  intro l
  induction l with
  | nil => intro v; rfl
  | cons a l ih =>
    intro v
    cases l with
    | nil => simp [addLast]
    | cons b rest =>
      rw [addLast]
      simp only [List.length_cons]
      rw [ih v]
      simp

/-- C8: the statistics vector is rewritten into section lengths: a section
closes exactly when the running sum first reaches 10000
(`closedSections`/`leftoverSum` are that characterization, and the first
conjunct says the rewritten vector is exactly those sections with the
remainder folded into the last — or alone when none closed); the total is
preserved; and the section count lies in `[1, 256]` and round-trips
through the count byte with 0 coding 256. -/
theorem C8_writeBlockHeader_sections :
    ∀ (stats : List Nat), stats.length ≤ 256 → 0 < stats.sum →
      sectionize stats =
        (if leftoverSum 0 stats ≠ 0 then
          (if 0 < (closedSections 0 stats).length then
            addLast (closedSections 0 stats) (leftoverSum 0 stats)
          else [leftoverSum 0 stats])
        else closedSections 0 stats) ∧
      (∀ c ∈ closedSections 0 stats, 10000 ≤ c) ∧
      leftoverSum 0 stats < 10000 ∧
      (sectionize stats).sum = stats.sum ∧
      1 ≤ (sectionize stats).length ∧
      (sectionize stats).length ≤ 256 ∧
      decodeSectionCount (sectionCountByte (sectionize stats).length) =
        (sectionize stats).length := by
  intro stats hlen hsum
  have hbridge : sectionize stats =
      (if leftoverSum 0 stats ≠ 0 then
        (if 0 < (closedSections 0 stats).length then
          addLast (closedSections 0 stats) (leftoverSum 0 stats)
        else [leftoverSum 0 stats])
      else closedSections 0 stats) := by
    simp only [sectionize, sectionLoop_eq, List.nil_append]
  have hsm := closedSections_sum stats 0
  have hln := closedSections_length stats 0
  have hsum2 : (sectionize stats).sum = stats.sum ∧
      1 ≤ (sectionize stats).length ∧ (sectionize stats).length ≤ 256 := by
    rw [hbridge]
    by_cases hL : leftoverSum 0 stats = 0
    · rw [if_neg (by omega)]
      have hCsum : (closedSections 0 stats).sum = stats.sum := by omega
      refine ⟨hCsum, ?_, by omega⟩
      by_contra hlen0
      have h0 : (closedSections 0 stats).length = 0 := by omega
      have hnil : closedSections 0 stats = [] := List.length_eq_zero.mp h0
      rw [hnil] at hCsum
      simp at hCsum
      omega
    · rw [if_pos hL]
      by_cases hC : 0 < (closedSections 0 stats).length
      · rw [if_pos hC]
        have hne : closedSections 0 stats ≠ [] := by
          intro h
          rw [h] at hC
          simp at hC
        rw [addLast_sum _ _ hne, addLast_length]
        exact ⟨by omega, by omega, by omega⟩
      · rw [if_neg hC]
        have h0 : (closedSections 0 stats).length = 0 := by omega
        have hnil : closedSections 0 stats = [] := List.length_eq_zero.mp h0
        rw [hnil] at hsm
        simp at hsm
        refine ⟨?_, by simp, by simp⟩
        simp
        omega
  refine ⟨hbridge, closedSections_ge stats 0, leftoverSum_lt stats 0 (by norm_num),
    hsum2.1, hsum2.2.1, hsum2.2.2, ?_⟩
  have h1 := hsum2.2.1
  have h2 := hsum2.2.2
  simp only [sectionCountByte, decodeSectionCount]
  by_cases hm : (sectionize stats).length = 256
  · rw [if_pos hm, if_pos rfl, hm]
  · rw [if_neg hm]
    have hmod : (sectionize stats).length % 256 =
        (sectionize stats).length := Nat.mod_eq_of_lt (by omega)
    rw [hmod, if_neg (by omega)]

/-- Witness for C8 at the statistics vector `[5000, 6000, 20000, 1]`. -/
theorem C8_witness :
    ([5000, 6000, 20000, 1] : List Nat).length ≤ 256 ∧
    0 < ([5000, 6000, 20000, 1] : List Nat).sum ∧
    (sectionize [5000, 6000, 20000, 1] =
        (if leftoverSum 0 [5000, 6000, 20000, 1] ≠ 0 then
          (if 0 < (closedSections 0 [5000, 6000, 20000, 1]).length then
            addLast (closedSections 0 [5000, 6000, 20000, 1])
              (leftoverSum 0 [5000, 6000, 20000, 1])
          else [leftoverSum 0 [5000, 6000, 20000, 1]])
        else closedSections 0 [5000, 6000, 20000, 1]) ∧
      (∀ c ∈ closedSections 0 [5000, 6000, 20000, 1], 10000 ≤ c) ∧
      leftoverSum 0 [5000, 6000, 20000, 1] < 10000 ∧
      (sectionize [5000, 6000, 20000, 1]).sum =
        ([5000, 6000, 20000, 1] : List Nat).sum ∧
      1 ≤ (sectionize [5000, 6000, 20000, 1]).length ∧
      (sectionize [5000, 6000, 20000, 1]).length ≤ 256 ∧
      decodeSectionCount
          (sectionCountByte (sectionize [5000, 6000, 20000, 1]).length) =
        (sectionize [5000, 6000, 20000, 1]).length) :=
  ⟨by decide, by decide,
    C8_writeBlockHeader_sections [5000, 6000, 20000, 1] (by decide) (by decide)⟩

/-! ## Bit-level codes

The bit-granular writer/reader (`RawOutStream`/`RawInStream`) is not part
of src/; per the spec (§4.1, §4.8) bits are packed into bytes MSB-first.
Bitstreams are modelled as `List Bool` in emission order. -/

/-- Modelled from the spec: `utils::logFloor` (declared in Utils.hpp, not in
src/) is `⌊log2 n⌋`. -/
def logFloor (n : Nat) : Nat := Nat.log2 n

/-- The `len` low bits of `n`, most significant first: what
`buffer <<= len; buffer |= n` appends to the bit buffer. -/
def bitsBE : Nat → Nat → List Bool
  | 0, _ => []
  | len + 1, n => n.testBit len :: bitsBE len n

/-- Gamma emission in `HuffmanEncoder::encodeData`
(src/HuffmanCoders.cpp:273-296): for each run length `n` append its
`gammaCodeLen = logFloor(n) * 2 + 1` low bits; since `n < 2^(logFloor n + 1)`
this is `logFloor n` zeros followed by `n`'s binary representation. -/
def encodeGamma (n : Nat) : List Bool := bitsBE (2 * logFloor n + 1) n

/-- `while (!readBit()) ++zeros` — counts and consumes the zeros and the
terminating one bit (src/HuffmanCoders.cpp:631-633). -/
def countZeros : List Bool → Option (Nat × List Bool)
  | [] => none
  | b :: bs => if b then some (0, bs) else
      (countZeros bs).map (fun zr => (zr.1 + 1, zr.2))

/-- `value = (value << 1) | readBit()` repeated `n` times
(src/HuffmanCoders.cpp:634-638). -/
def readBitsAcc : Nat → Nat → List Bool → Option (Nat × List Bool)
  | 0, acc, bs => some (acc, bs)
  | _ + 1, _, [] => none
  | n + 1, acc, b :: bs => readBitsAcc n ((acc <<< 1) ||| b.toNat) bs

/-- The decoder's gamma reader (src/HuffmanCoders.cpp:629-642): count zeros,
read that many value bits, then `value |= 1 << zeros`.  Returns the value
and the rest of the stream. -/
def decodeGamma (bs : List Bool) : Option (Nat × List Bool) :=
  (countZeros bs).bind (fun zs =>
    (readBitsAcc zs.1 0 zs.2).map (fun vr => (vr.1 ||| (1 <<< zs.1), vr.2)))

lemma bitsBE_length : ∀ (len n : Nat), (bitsBE len n).length = len := by
  intro len
  induction len with
  | zero => intro n; rfl
  | succ l ih => intro n; rw [bitsBE, List.length_cons, ih]

lemma bitsBE_add (k : Nat) :
    ∀ (z n : Nat), n < 2 ^ z → bitsBE (z + k) n = List.replicate k false ++ bitsBE z n := by
  induction k with
  | zero => intro z n _; rfl
  | succ k ih =>
    intro z n hn
    have hsucc : z + (k + 1) = (z + k) + 1 := by omega
    rw [hsucc, bitsBE, ih z n hn]
    have hbit : n.testBit (z + k) = false :=
      Nat.testBit_lt_two_pow (lt_of_lt_of_le hn (Nat.pow_le_pow_right (by norm_num) (by omega)))
    rw [hbit]
    rfl

lemma countZeros_replicate :
    ∀ (z : Nat) (rest : List Bool),
      countZeros (List.replicate z false ++ true :: rest) = some (z, rest) := by
  intro z
  induction z with
  | zero => intro rest; simp [countZeros]
  | succ z ih =>
    intro rest
    rw [List.replicate_succ, List.cons_append, countZeros]
    rw [if_neg (by simp)]
    rw [ih rest]
    rfl

lemma readBitsAcc_append :
    ∀ (l : List Bool) (acc : Nat) (rest : List Bool),
      readBitsAcc l.length acc (l ++ rest) =
        some (l.foldl (fun a b => (a <<< 1) ||| b.toNat) acc, rest) := by
  intro l
  induction l with
  | nil => intro acc rest; rfl
  | cons b bs ih =>
    intro acc rest
    rw [List.length_cons, List.cons_append, readBitsAcc, ih]
    rfl

lemma shift1_or_eq (a : Nat) (b : Bool) : (a <<< 1) ||| b.toNat = 2 * a + b.toNat := by
  have h := or_shiftLeft_eq b.toNat a 1 (by cases b <;> simp)
  rw [Nat.lor_comm] at h
  rw [h]
  ring

lemma foldl_bitsBE :
    ∀ (len n acc : Nat),
      (bitsBE len n).foldl (fun a b => (a <<< 1) ||| b.toNat) acc =
        acc * 2 ^ len + n % 2 ^ len := by
  intro len
  induction len with
  | zero => intro n acc; simp [bitsBE, Nat.mod_one]
  | succ l ih =>
    intro n acc
    rw [bitsBE, List.foldl_cons, ih]
    rw [shift1_or_eq, Nat.toNat_testBit]
    have hsplit : n % 2 ^ (l + 1) = n % 2 ^ l + 2 ^ l * (n / 2 ^ l % 2) := by
      have h2 : (2 : Nat) ^ (l + 1) = 2 ^ l * 2 := by rw [pow_succ]
      rw [h2, Nat.mod_mul]
    rw [hsplit, pow_succ]
    ring

/-- C7: for every `n ∈ [1, 2^31)`, the Elias gamma code of `n`
(`logFloor n` zeros then `n`'s binary representation) decodes back to
exactly `n`, consuming exactly `2 * logFloor n + 1` bits (the remaining
stream is returned untouched, and the code has that length). -/
theorem C7_gamma_roundtrip :
    ∀ n : Nat, 1 ≤ n → n < 2 ^ 31 → ∀ rest : List Bool,
      decodeGamma (encodeGamma n ++ rest) = some (n, rest) ∧
      (encodeGamma n).length = 2 * logFloor n + 1 := by
  intro n h1 _ rest
  have hlow : 2 ^ Nat.log2 n ≤ n := Nat.log2_self_le (by omega)
  have hhigh : n < 2 ^ (Nat.log2 n + 1) := Nat.lt_log2_self
  have hdiv : n / 2 ^ Nat.log2 n = 1 := by
    apply Nat.div_eq_of_lt_le
    · rw [one_mul]; exact hlow
    · rw [show (1 + 1) * 2 ^ Nat.log2 n = 2 ^ (Nat.log2 n + 1) by rw [pow_succ]; ring]
      exact hhigh
  have hbit : n.testBit (Nat.log2 n) = true := by
    rw [Nat.testBit_to_div_mod, hdiv]
    norm_num
  have hcode : encodeGamma n =
      List.replicate (Nat.log2 n) false ++ true :: bitsBE (Nat.log2 n) n := by
    rw [encodeGamma, logFloor]
    have hlen : 2 * Nat.log2 n + 1 = (Nat.log2 n + 1) + Nat.log2 n := by omega
    rw [hlen, bitsBE_add (Nat.log2 n) (Nat.log2 n + 1) n hhigh, bitsBE, hbit]
  refine ⟨?_, ?_⟩
  · rw [hcode, decodeGamma]
    rw [List.append_assoc, List.cons_append]
    rw [countZeros_replicate]
    rw [Option.some_bind]
    have hread : readBitsAcc (Nat.log2 n) 0 (bitsBE (Nat.log2 n) n ++ rest) =
        some ((bitsBE (Nat.log2 n) n).foldl (fun a b => (a <<< 1) ||| b.toNat) 0, rest) := by
      have h := readBitsAcc_append (bitsBE (Nat.log2 n) n) 0 rest
      rw [bitsBE_length] at h
      exact h
    rw [hread]
    simp only [Option.map_some']
    rw [foldl_bitsBE]
    have hmodlt : n % 2 ^ Nat.log2 n < 2 ^ Nat.log2 n := Nat.mod_lt _ (by positivity)
    have hor := or_shiftLeft_eq (0 * 2 ^ Nat.log2 n + n % 2 ^ Nat.log2 n) 1
      (Nat.log2 n) (by omega)
    rw [hor]
    have hdm := Nat.div_add_mod n (2 ^ Nat.log2 n)
    rw [hdiv] at hdm
    have hn2 : 1 * 2 ^ Nat.log2 n + (0 * 2 ^ Nat.log2 n + n % 2 ^ Nat.log2 n) = n := by
      omega
    rw [hn2]
  · rw [encodeGamma, bitsBE_length]

/-- Witness for C7 at `n = 5` with an empty trailing stream. -/
theorem C7_witness :
    1 ≤ 5 ∧ 5 < 2 ^ 31 ∧
      (decodeGamma (encodeGamma 5 ++ []) = some (5, []) ∧
       (encodeGamma 5).length = 2 * logFloor 5 + 1) :=
  ⟨by norm_num, by norm_num, C7_gamma_roundtrip 5 (by norm_num) (by norm_num) []⟩

/-! ## The LF-power trailer
(`HuffmanEncoder::writeTrailer`, src/HuffmanCoders.cpp:64-85;
trailer parsing in `HuffmanDecoder::decodeBlock`, lines 653-661)

The encoder writes one byte holding `LFpowers.size() - 1`, then packs each
power's bits 30..0 through the byte-wide shift register `s`
(`s = (s << 1) | bit`), flushing a byte whenever 8 bits accumulated and
zero-padding the last byte.  The two nested loops traverse exactly the
concatenation of the per-power 31-bit MSB-first strings, so the embedding
runs the register over that flattened bit list. -/

/-- The shift-register loop of `writeTrailer`: `s` is the byte register,
`bitsLeft` counts down from 8, `out`/`bytes` accumulate the emitted bytes
and the returned byte count; the empty-list case is the final
`if (bitsLeft < 8) writeByte(s << bitsLeft)` flush. -/
def packBitsMSB : List Bool → Nat → Nat → List Nat → Nat → List Nat × Nat
  | [], s, bitsLeft, out, bytes =>
    if bitsLeft < 8 then (out ++ [(s <<< bitsLeft) % 256], bytes + 1) else (out, bytes)
  | b :: bs, s, bitsLeft, out, bytes =>
    let s1 := ((s <<< 1) ||| b.toNat) % 256
    if bitsLeft - 1 = 0 then packBitsMSB bs s1 8 (out ++ [s1]) (bytes + 1)
    else packBitsMSB bs s1 (bitsLeft - 1) out bytes

/-- `HuffmanEncoder::writeTrailer`: the count byte then the packed 31-bit
powers; returns the written bytes and the returned count `bytes`. -/
def writeTrailer (lf : List Nat) : List Nat × Nat :=
  let s0 := (lf.length - 1) % 256
  packBitsMSB ((lf.map (fun v => bitsBE 31 v)).flatten) s0 8 [s0] 1

/-- A byte stream as the bit stream `readBit` traverses (MSB-first per
byte; modelled from the spec). -/
def bytesToBits (bs : List Nat) : List Bool :=
  (bs.map (fun b => bitsBE 8 b)).flatten

/-- The decoder's per-power loop: 31 bits via
`pos = (pos << 1) | readBit()`, repeated for each power. -/
def readNPowers : Nat → List Bool → Option (List Nat)
  | 0, _ => some []
  | m + 1, bits =>
    (readBitsAcc 31 0 bits).bind (fun vr =>
      (readNPowers m vr.2).map (fun rest => vr.1 :: rest))

/-- Trailer parsing (src/HuffmanCoders.cpp:653-661):
`LFpows = readByte() + 1`, then `LFpows` 31-bit values. -/
def readTrailer : List Nat → Option (List Nat)
  | [] => none
  | c :: rest => readNPowers (c % 256 + 1) (bytesToBits rest)

/-- Value of an MSB-first bit list. -/
def bitsToNatMSB (l : List Bool) : Nat :=
  l.foldl (fun a b => 2 * a + b.toNat) 0

/-- Reference byte chunking of a bit list: `cur` is the partial byte
(fewer than 8 bits); each full byte is emitted, and a nonempty final
partial byte is zero-padded. -/
def chunkOut : List Bool → List Bool → List Nat
  | cur, [] => if cur.isEmpty then [] else [bitsToNatMSB cur * 2 ^ (8 - cur.length)]
  | cur, b :: bs =>
    if cur.length = 7 then bitsToNatMSB (cur ++ [b]) :: chunkOut [] bs
    else chunkOut (cur ++ [b]) bs

lemma foldl_msb_acc :
    ∀ (l : List Bool) (acc : Nat),
      l.foldl (fun a b => 2 * a + b.toNat) acc = acc * 2 ^ l.length + bitsToNatMSB l := by
  intro l
  induction l with
  | nil => intro acc; simp [bitsToNatMSB]
  | cons b bs ih =>
    intro acc
    rw [List.foldl_cons, ih]
    have h2 : bitsToNatMSB (b :: bs) = b.toNat * 2 ^ bs.length + bitsToNatMSB bs := by
      rw [bitsToNatMSB, List.foldl_cons]
      have := ih (2 * 0 + b.toNat)
      rw [this]
      ring
    rw [h2, List.length_cons, pow_succ]
    ring

lemma bitsToNatMSB_lt : ∀ l : List Bool, bitsToNatMSB l < 2 ^ l.length := by
  intro l
  induction l with
  | nil => simp [bitsToNatMSB]
  | cons b bs ih =>
    have h2 : bitsToNatMSB (b :: bs) = b.toNat * 2 ^ bs.length + bitsToNatMSB bs := by
      rw [bitsToNatMSB, List.foldl_cons]
      have := foldl_msb_acc bs (2 * 0 + b.toNat)
      rw [this]
      ring
    rw [h2, List.length_cons, pow_succ]
    have hb : b.toNat ≤ 1 := by cases b <;> simp
    have : b.toNat * 2 ^ bs.length ≤ 2 ^ bs.length := by
      calc b.toNat * 2 ^ bs.length ≤ 1 * 2 ^ bs.length :=
        Nat.mul_le_mul_right _ hb
      _ = 2 ^ bs.length := one_mul _
    omega

lemma bitsToNatMSB_snoc (l : List Bool) (b : Bool) :
    bitsToNatMSB (l ++ [b]) = 2 * bitsToNatMSB l + b.toNat := by
  rw [bitsToNatMSB, List.foldl_append]
  rfl

lemma bitsBE_succ_snoc :
    ∀ (l n : Nat), bitsBE (l + 1) n = bitsBE l (n / 2) ++ [decide (n % 2 = 1)] := by
  intro l
  induction l with
  | zero =>
    intro n
    rw [bitsBE, bitsBE, bitsBE]
    rw [Nat.testBit_zero]
    rfl
  | succ l ih =>
    intro n
    have hL : bitsBE (l + 1 + 1) n = n.testBit (l + 1) :: bitsBE (l + 1) n := rfl
    have hR : bitsBE (l + 1) (n / 2) = (n / 2).testBit l :: bitsBE l (n / 2) := rfl
    rw [hL, hR, ih n, Nat.testBit_add_one]
    rfl

lemma bitsBE_bitsToNatMSB : ∀ l : List Bool, bitsBE l.length (bitsToNatMSB l) = l := by
  intro l
  induction l using List.reverseRecOn with
  | nil => rfl
  | append_singleton l b ih =>
    rw [List.length_append, List.length_singleton, bitsToNatMSB_snoc, bitsBE_succ_snoc]
    have hdiv : (2 * bitsToNatMSB l + b.toNat) / 2 = bitsToNatMSB l := by
      cases b <;> simp <;> omega
    have hmod : decide ((2 * bitsToNatMSB l + b.toNat) % 2 = 1) = b := by
      cases b <;> simp <;> omega
    rw [hdiv, hmod, ih]

lemma bitsBE_mul_pow_le :
    ∀ (j k m : Nat), j ≤ k → bitsBE j (m * 2 ^ k) = List.replicate j false := by
  intro j
  induction j with
  | zero => intro k m _; rfl
  | succ j ih =>
    intro k m hjk
    rw [bitsBE, ih k m (by omega)]
    have hbit : (m * 2 ^ k).testBit j = false := by
      have h := Nat.testBit_mul_pow_two_add m (show (0 : Nat) < 2 ^ k by positivity) j
      rw [Nat.add_zero] at h
      rw [Nat.mul_comm m (2 ^ k), h, if_pos (by omega)]
      exact Nat.zero_testBit j
    rw [hbit]
    rfl

lemma bitsBE_mul_pow :
    ∀ (l k m : Nat), bitsBE (l + k) (m * 2 ^ k) = bitsBE l m ++ List.replicate k false := by
  intro l
  induction l with
  | zero =>
    intro k m
    rw [Nat.zero_add]
    rw [bitsBE_mul_pow_le k k m (le_refl k)]
    rfl
  | succ l ih =>
    intro k m
    have harr : l + 1 + k = (l + k) + 1 := by omega
    rw [harr, bitsBE, ih k m]
    have hbit : (m * 2 ^ k).testBit (l + k) = (m.testBit l) := by
      have h := Nat.testBit_mul_pow_two_add m (show (0 : Nat) < 2 ^ k by positivity) (l + k)
      rw [Nat.add_zero] at h
      rw [Nat.mul_comm m (2 ^ k), h, if_neg (by omega)]
      congr 1
      omega
    rw [hbit]
    rfl

/-- The shift register emits exactly the byte chunking of the bit list:
`cur` is the partial byte already inside `s` (its value is `s`'s low bits). -/
lemma packBitsMSB_eq :
    ∀ (bs cur : List Bool) (s : Nat) (out : List Nat) (bytes : Nat),
      cur.length < 8 → s % 2 ^ cur.length = bitsToNatMSB cur →
      packBitsMSB bs s (8 - cur.length) out bytes =
        (out ++ chunkOut cur bs, bytes + (chunkOut cur bs).length) := by
  intro bs
  induction bs with
  | nil =>
    intro cur s out bytes hlen hs
    rw [packBitsMSB, chunkOut]
    rcases List.eq_nil_or_concat cur with rfl | _
    · rw [if_neg (by simp)]
      simp
    · have hne : ¬ cur.isEmpty := by
        rcases cur with _ | ⟨a, l⟩
        · rename_i h; obtain ⟨l2, b2, h2⟩ := h; simp at h2
        · simp
      have hpos : 0 < cur.length := by
        rcases cur with _ | ⟨a, l⟩
        · simp at hne
        · simp
      rw [if_pos (by omega), if_neg hne]
      have hbyte : (s <<< (8 - cur.length)) % 256 =
          bitsToNatMSB cur * 2 ^ (8 - cur.length) := by
        rw [Nat.shiftLeft_eq]
        have h256 : (256 : Nat) = 2 ^ cur.length * 2 ^ (8 - cur.length) := by
          rw [← pow_add]
          have he : cur.length + (8 - cur.length) = 8 := by omega
          rw [he]
          norm_num
        rw [h256, Nat.mul_mod_mul_right, hs]
      rw [hbyte]
      simp
  | cons b bs ih =>
    intro cur s out bytes hlen hs
    rw [packBitsMSB, chunkOut]
    have hT : bitsToNatMSB cur < 2 ^ cur.length := by
      rw [← hs]
      exact Nat.mod_lt _ (by positivity)
    have hs1 : ((s <<< 1) ||| b.toNat) % 256 % 2 ^ (cur.length + 1) =
        2 * bitsToNatMSB cur + b.toNat := by
      rw [shift1_or_eq]
      rw [Nat.mod_mod_of_dvd _ (by
        rw [show (256 : Nat) = 2 ^ 8 by norm_num]
        exact pow_dvd_pow 2 (by omega))]
      have hdm := Nat.div_add_mod s (2 ^ cur.length)
      have harr : 2 * s + b.toNat =
          (2 * bitsToNatMSB cur + b.toNat) + (s / 2 ^ cur.length) * 2 ^ (cur.length + 1) := by
        rw [pow_succ]
        have : 2 * s = 2 * (2 ^ cur.length * (s / 2 ^ cur.length)) + 2 * (s % 2 ^ cur.length) := by
          omega
        rw [this, hs]
        ring
      rw [harr, Nat.add_mul_mod_self_right]
      apply Nat.mod_eq_of_lt
      have hb : b.toNat ≤ 1 := by cases b <;> simp
      rw [pow_succ]
      omega
    by_cases h7 : cur.length = 7
    · rw [if_pos (by omega), if_pos (by rw [h7])]
      have hs1' : ((s <<< 1) ||| b.toNat) % 256 = bitsToNatMSB (cur ++ [b]) := by
        have h8 := hs1
        rw [h7] at h8
        have hlt : ((s <<< 1) ||| b.toNat) % 256 < 256 := Nat.mod_lt _ (by norm_num)
        have h256 : (2 : Nat) ^ 8 = 256 := by norm_num
        have hmm : ((s <<< 1) ||| b.toNat) % 256 % 2 ^ 8 = ((s <<< 1) ||| b.toNat) % 256 := by
          rw [h256]
          exact Nat.mod_eq_of_lt hlt
        rw [bitsToNatMSB_snoc, ← h8, hmm]
      have hrec := ih [] (((s <<< 1) ||| b.toNat) % 256) (out ++ [((s <<< 1) ||| b.toNat) % 256])
        (bytes + 1) (by simp) (by simp [bitsToNatMSB, Nat.mod_one])
      simp only [List.length_nil, Nat.sub_zero] at hrec
      rw [hrec, hs1']
      rw [List.append_assoc]
      simp only [List.singleton_append, List.length_cons, Prod.mk.injEq]
      exact ⟨trivial, by omega⟩
    · rw [if_neg (by omega), if_neg h7]
      have harg : 8 - cur.length - 1 = 8 - (cur ++ [b]).length := by
        rw [List.length_append, List.length_singleton]
        omega
      rw [harg]
      have hrec := ih (cur ++ [b]) (((s <<< 1) ||| b.toNat) % 256) out bytes
        (by rw [List.length_append, List.length_singleton]; omega)
        (by rw [List.length_append, List.length_singleton, hs1, bitsToNatMSB_snoc])
      rw [hrec]

lemma bytesToBits_cons (x : Nat) (rest : List Nat) :
    bytesToBits (x :: rest) = bitsBE 8 x ++ bytesToBits rest := by
  rw [bytesToBits, bytesToBits, List.map_cons, List.flatten_cons]

/-- The bit stream read back from the chunked bytes is the original bit
list followed by the zero padding of the final partial byte. -/
lemma bytesToBits_chunkOut :
    ∀ (bs cur : List Bool), cur.length < 8 →
      ∃ pad, bytesToBits (chunkOut cur bs) = cur ++ bs ++ List.replicate pad false := by
  intro bs
  induction bs with
  | nil =>
    intro cur hcur
    cases cur with
    | nil => exact ⟨0, by simp [chunkOut, bytesToBits]⟩
    | cons c cs =>
      refine ⟨8 - (c :: cs).length, ?_⟩
      rw [chunkOut, if_neg (by simp), bytesToBits_cons]
      have hbe : bitsBE 8 (bitsToNatMSB (c :: cs) * 2 ^ (8 - (c :: cs).length)) =
          (c :: cs) ++ List.replicate (8 - (c :: cs).length) false := by
        have h := bitsBE_mul_pow (c :: cs).length (8 - (c :: cs).length)
          (bitsToNatMSB (c :: cs))
        rw [bitsBE_bitsToNatMSB] at h
        have h8 : (c :: cs).length + (8 - (c :: cs).length) = 8 := by omega
        rw [h8] at h
        exact h
      rw [hbe]
      simp [bytesToBits]
  | cons b bs ih =>
    intro cur hcur
    by_cases h7 : cur.length = 7
    · obtain ⟨pad, hpad⟩ := ih [] (by norm_num)
      refine ⟨pad, ?_⟩
      rw [chunkOut, if_pos h7, bytesToBits_cons]
      have hlen8 : (cur ++ [b]).length = 8 := by
        rw [List.length_append, List.length_singleton, h7]
      have hbe : bitsBE 8 (bitsToNatMSB (cur ++ [b])) = cur ++ [b] := by
        rw [← hlen8, bitsBE_bitsToNatMSB]
      rw [hbe, hpad]
      simp [List.append_assoc]
    · obtain ⟨pad, hpad⟩ := ih (cur ++ [b])
        (by rw [List.length_append, List.length_singleton]; omega)
      refine ⟨pad, ?_⟩
      rw [chunkOut, if_neg h7, hpad]
      simp [List.append_assoc]

/-- The decoder's power loop reads back exactly the encoded values,
whatever bits follow them. -/
lemma readNPowers_flatten :
    ∀ (lf : List Nat), (∀ v ∈ lf, v < 2 ^ 31) → ∀ tail : List Bool,
      readNPowers lf.length ((lf.map (fun v => bitsBE 31 v)).flatten ++ tail) = some lf := by
  intro lf
  induction lf with
  | nil => intro _ tail; rfl
  | cons v lf ih =>
    intro hv tail
    rw [List.length_cons, List.map_cons, List.flatten_cons, List.append_assoc, readNPowers]
    have hvlt : v < 2 ^ 31 := hv v (List.mem_cons_self v lf)
    have hr := readBitsAcc_append (bitsBE 31 v) 0
      ((lf.map (fun v => bitsBE 31 v)).flatten ++ tail)
    rw [bitsBE_length, foldl_bitsBE, Nat.zero_mul, Nat.zero_add,
      Nat.mod_eq_of_lt hvlt] at hr
    have hrec := ih (fun w hw => hv w (List.mem_cons_of_mem v hw)) tail
    rw [hr]
    simp only [Option.some_bind, hrec, Option.map_some']

/-- C9: for every nonempty list of at most 256 LF powers, each below
`2^31`, the trailer written by `writeTrailer` (count byte `length - 1`,
then the 31-bit powers packed MSB-first with zero padding to the byte
boundary) is parsed back by the decoder's trailer reading to exactly the
same list, and the returned byte count equals the number of bytes
written. -/
theorem C9_trailer_roundtrip :
    ∀ lf : List Nat, lf ≠ [] → lf.length ≤ 256 → (∀ v ∈ lf, v < 2 ^ 31) →
      readTrailer (writeTrailer lf).1 = some lf ∧
      (writeTrailer lf).2 = (writeTrailer lf).1.length := by
  intro lf hne hlen hv
  have h1 : 0 < lf.length := List.length_pos.mpr hne
  have hpack := packBitsMSB_eq ((lf.map (fun v => bitsBE 31 v)).flatten) []
    ((lf.length - 1) % 256) [(lf.length - 1) % 256] 1 (by norm_num)
    (by simp [bitsToNatMSB, Nat.mod_one])
  simp only [List.length_nil, Nat.sub_zero] at hpack
  have hw : writeTrailer lf =
      ([(lf.length - 1) % 256] ++
          chunkOut [] ((lf.map (fun v => bitsBE 31 v)).flatten),
        1 + (chunkOut [] ((lf.map (fun v => bitsBE 31 v)).flatten)).length) := by
    rw [writeTrailer]
    exact hpack
  obtain ⟨pad, hpad⟩ :=
    bytesToBits_chunkOut ((lf.map (fun v => bitsBE 31 v)).flatten) [] (by norm_num)
  rw [List.nil_append] at hpad
  constructor
  · rw [hw]
    rw [List.singleton_append]
    rw [readTrailer]
    rw [hpad]
    have hs0 : (lf.length - 1) % 256 % 256 + 1 = lf.length := by omega
    rw [hs0]
    exact readNPowers_flatten lf hv (List.replicate pad false)
  · rw [hw]
    rw [List.length_append, List.length_singleton]

/-- Witness for C9 at the concrete list `[5, 70000]`. -/
theorem C9_witness :
    ([5, 70000] : List Nat) ≠ [] ∧ ([5, 70000] : List Nat).length ≤ 256 ∧
      (∀ v ∈ ([5, 70000] : List Nat), v < 2 ^ 31) ∧
      readTrailer (writeTrailer [5, 70000]).1 = some [5, 70000] ∧
      (writeTrailer [5, 70000]).2 = (writeTrailer [5, 70000]).1.length :=
  ⟨by decide, by decide, by decide,
    (C9_trailer_roundtrip [5, 70000] (by decide) (by decide) (by decide)).1,
    (C9_trailer_roundtrip [5, 70000] (by decide) (by decide) (by decide)).2⟩
